import Mathlib

set_option maxHeartbeats 1000000
set_option maxRecDepth 10000

namespace CmdService

/-- Python strings are modelled as lists of characters. -/
abbrev Str := List Char

/-- Whitespace characters removed by Python str.strip (ASCII range). -/
def pyWs (c : Char) : Bool :=
  c = ' ' || c = '\t' || c = '\n' || c = '\r' || c = '\x0b' || c = '\x0c'

/-- Python str.strip: drop leading and trailing whitespace. -/
def strip (s : Str) : Str :=
  ((s.dropWhile pyWs).reverse.dropWhile pyWs).reverse

/-- Python text-mode line iteration with universal newlines: lines are
separated by a carriage-return/newline pair, a lone carriage return, or a
lone newline; the separators are not part of the lines. -/
def splitLinesU : Str → List Str
  | [] => [[]]
  | '\r' :: '\n' :: rest => [] :: splitLinesU rest
  | '\r' :: rest => [] :: splitLinesU rest
  | '\n' :: rest => [] :: splitLinesU rest
  | c :: rest =>
    match splitLinesU rest with
    | [] => [[c]]
    | l :: ls => (c :: l) :: ls

/-- Numeric value of a decimal digit string, as Python int() on it. -/
def digitsVal (s : Str) : Nat :=
  s.foldl (fun acc c => acc * 10 + (c.toNat - 48)) 0

/-- Recursion core of the decimal rendering of a natural number.  The fuel
only bounds the recursion depth; any fuel above the number itself yields the
digits. -/
def natDigitsGo : Nat → Nat → Str
  | 0, _ => []
  | fuel + 1, n =>
    if n < 10 then [Char.ofNat (48 + n)]
    else natDigitsGo fuel (n / 10) ++ [Char.ofNat (48 + n % 10)]

/-- Decimal rendering of a natural number (Python str / f-string formatting). -/
def natDigits (n : Nat) : Str := natDigitsGo (n + 1) n

theorem natDigitsGo_fuel : ∀ f g n, n < f → n < g → natDigitsGo f n = natDigitsGo g n := by
  intro f
  induction f with
  | zero => intro g n hf; omega
  | succ f ih =>
    intro g n hf hg
    cases g with
    | zero => omega
    | succ g =>
      rw [natDigitsGo, natDigitsGo]
      by_cases h : n < 10
      · rw [if_pos h, if_pos h]
      · rw [if_neg h, if_neg h]
        have hdiv : n / 10 < n := Nat.div_lt_self (by omega) (by omega)
        rw [ih g (n / 10) (by omega) (by omega)]

theorem natDigits_eq (n : Nat) :
    natDigits n = if n < 10 then [Char.ofNat (48 + n)]
      else natDigits (n / 10) ++ [Char.ofNat (48 + n % 10)] := by
  rw [natDigits, natDigitsGo]
  by_cases h : n < 10
  · rw [if_pos h, if_pos h]
  · rw [if_neg h, if_neg h, natDigits]
    have hdiv : n / 10 < n := Nat.div_lt_self (by omega) (by omega)
    rw [natDigitsGo_fuel n (n / 10 + 1) (n / 10) (by omega) (by omega)]

/-- Token kinds of the token file. -/
inductive Kind
  | permanent
  | timed
  | unused
deriving DecidableEq, Repr

/-- One parsed token-file entry: token string, kind and, for timed entries,
the Unix timestamp.  The source also stores the raw line in the entry dict;
that field is never read afterwards and is omitted here. -/
structure TokenEntry where
  token : Str
  kind : Kind
  timestamp : Option Nat
deriving DecidableEq, Repr

/-- The marker of permanent entries. -/
def permTag : Str := "permanent:".data

/-- Classify one stripped, non-blank, non-comment line, following the source:
first the "permanent:" marker, else the regular expression matching at least
ten leading digits, a colon and a non-empty remainder (since the greedy digit
run cannot end before a non-digit and a colon is not a digit, a match is
exactly a maximal leading digit run of length at least ten followed by a
colon and a non-empty rest), else an unused bare token.  Digits are modelled
as ASCII digits. -/
def classifyLine (stripped : Str) : TokenEntry :=
  if permTag.isPrefixOf stripped then
    { token := strip (stripped.drop permTag.length), kind := .permanent, timestamp := none }
  else
    let ds := stripped.takeWhile Char.isDigit
    match stripped.drop ds.length with
    | ':' :: tl =>
      if 10 ≤ ds.length ∧ tl ≠ [] then
        { token := strip tl, kind := .timed, timestamp := some (digitsVal ds) }
      else
        { token := stripped, kind := .unused, timestamp := none }
    | _ => { token := stripped, kind := .unused, timestamp := none }

/-- Source: parse_token_file.  The state of the backing file is `none` when
the file is absent.  Blank lines and "#" comment lines are skipped; every
other line yields exactly one entry. -/
def parse_token_file (file : Option Str) : List TokenEntry :=
  match file with
  | none => []
  | some text =>
    (splitLinesU text).filterMap fun line =>
      let stripped := strip line
      if stripped = [] then none
      else if stripped.head? = some '#' then none
      else some (classifyLine stripped)

/-- The line written for one entry (body of the write_token_file loop),
without the trailing newline.  Python renders a `None` timestamp as the
string "None". -/
def entryLine (e : TokenEntry) : Str :=
  match e.kind with
  | .permanent => permTag ++ e.token
  | .timed =>
    (match e.timestamp with
     | some ts => natDigits ts
     | none => "None".data) ++ ':' :: e.token
  | .unused => e.token

/-- Source: write_token_file.  Rewrites the whole file, one entry per line. -/
def write_token_file (entries : List TokenEntry) : Str :=
  (entries.map (fun e => entryLine e ++ ['\n'])).flatten

/-- Source constant SESSION_TIMEOUT (seconds). -/
def SESSION_TIMEOUT : Nat := 600

/-- The expiry test inside authenticate: a timed entry whose age is at least
SESSION_TIMEOUT.  Subtraction is on Nat; since SESSION_TIMEOUT is positive,
truncation at zero gives the same comparison outcome as Python integers. -/
def expiredB (now : Nat) (e : TokenEntry) : Bool :=
  e.kind == Kind.timed && (match e.timestamp with
    | some ts => SESSION_TIMEOUT ≤ now - ts
    | none => false)

/-- The for-loop of authenticate: walk the entries, dropping expired timed
entries, matching the first surviving entry whose token is the candidate and
stamping or refreshing its timestamp.  Returns the kept entries, the changed
flag and the matched flag; the Bool argument is the loop-carried matched
flag. -/
def authScan (now : Nat) (tok : Str) : List TokenEntry → Bool → List TokenEntry × Bool × Bool
  | [], matched => ([], false, matched)
  | e :: rest, matched =>
    if expiredB now e then
      let r := authScan now tok rest matched
      (r.1, true, r.2.2)
    else if matched = false ∧ e.token = tok then
      match e.kind with
      | .unused =>
        let r := authScan now tok rest true
        ({ token := e.token, kind := .timed, timestamp := some now } :: r.1, true, r.2.2)
      | .timed =>
        let r := authScan now tok rest true
        ({ token := e.token, kind := .timed, timestamp := some now } :: r.1, true, r.2.2)
      | .permanent =>
        let r := authScan now tok rest true
        (e :: r.1, r.2.1, r.2.2)
    else
      let r := authScan now tok rest matched
      (e :: r.1, r.2.1, r.2.2)

/-- Source: authenticate.  The backing-file state is passed in and the new
state is returned next to the result; `now` stands for int(time.time()).
The file is rewritten only when the changed flag was set. -/
def authenticate (file : Option Str) (now : Nat) (provided_token : Str) : Bool × Option Str :=
  let entries := parse_token_file file
  let r := authScan now provided_token entries false
  (r.2.2, if r.2.1 then some (write_token_file r.1) else file)

/-- Python str.rfind of a newline over the slice s[0:stop]: the largest index
below stop (and below the length) holding a newline, `none` for Python -1. -/
def rfindNl (s : Str) (stop : Nat) : Option Nat :=
  match stop with
  | 0 => none
  | n + 1 => if s.get? n = some '\n' then some n else rfindNl s n

/-- The cut position of one _split_content iteration: the source guard
`cut <= 0` maps the rfind results -1 and 0 both to a hard cut at chunk_size;
any other found index is incremented so that the newline stays at the end of
the chunk it terminates. -/
def cutOf (content : Str) (chunk_size : Nat) : Nat :=
  match rfindNl content chunk_size with
  | none => chunk_size
  | some 0 => chunk_size
  | some k => k + 1

/-- The while-loop of _split_content.  The fuel argument only bounds the
iteration count for totality; content-length fuel is enough whenever the
chunk size is positive, because every iteration then consumes at least one
character. -/
def splitGo (fuel : Nat) (content : Str) (chunk_size : Nat) : List Str :=
  match fuel with
  | 0 => []
  | fuel + 1 =>
    if content = [] then []
    else if content.length ≤ chunk_size then [content]
    else content.take (cutOf content chunk_size)
      :: splitGo fuel (content.drop (cutOf content chunk_size)) chunk_size

/-- Source: _split_content.  Split content into chunks, preferring newline
boundaries.  The source guard `cut <= 0` maps the rfind results -1 and 0 both
to a hard cut at chunk_size; any other result is incremented so that the
newline stays at the end of the chunk it terminates. -/
def split_content (content : Str) (chunk_size : Nat) : List Str :=
  if content.length ≤ chunk_size then [content]
  else splitGo content.length content chunk_size

/-- The double-quote character. -/
def dqC : Char := Char.ofNat 34

/-- The single-quote character. -/
def sqC : Char := Char.ofNat 39

/-- The backslash character. -/
def bsC : Char := Char.ofNat 92

/-- Association-list model of a Python dict, in insertion order: lookup. -/
def dget (d : List (Str × Str)) (k : Str) : Option Str :=
  (d.find? (fun p => p.1 == k)).map (fun p => p.2)

/-- Python dict assignment d[k] = v: replace in place when the key exists,
else append at the end. -/
def dinsert (d : List (Str × Str)) (k v : Str) : List (Str × Str) :=
  if d.any (fun p => p.1 == k) then
    d.map (fun p => if p.1 == k then (k, v) else p)
  else d ++ [(k, v)]

/-- Python dict.pop(k, None): remove the key when present. -/
def dpop (d : List (Str × Str)) (k : Str) : List (Str × Str) :=
  d.filter (fun p => p.1 != k)

/-- Python set.add on the list model of a flag set: append when missing. -/
def fadd (fs : List Str) (f : Str) : List Str :=
  if fs.any (fun x => x == f) then fs else fs ++ [f]

/-- Python set.discard on the list model of a flag set. -/
def fdiscard (fs : List Str) (f : Str) : List Str :=
  fs.filter (fun x => x != f)

/-- Python str.partition at the first equals sign, keeping only the key and
the value. -/
def partitionEq (arg : Str) : Str × Str :=
  (arg.takeWhile (fun c => c != '='), (arg.dropWhile (fun c => c != '=')).drop 1)

/-- The argument loop of _parse_obsidian_args over argv[2:]. -/
def argsLoop : List Str → List (Str × Str) × List Str → List (Str × Str) × List Str
  | [], acc => acc
  | arg :: rest, acc =>
    if arg.any (fun c => c == '=') then
      argsLoop rest (dinsert acc.1 (partitionEq arg).1 (partitionEq arg).2, acc.2)
    else
      argsLoop rest (acc.1, fadd acc.2 arg)

/-- Source: _parse_obsidian_args.  argv[1] (when present) is the subcommand;
every later token containing an equals sign becomes a key=value parameter
split at the first equals sign (duplicate keys: last wins), tokens without
one become flags. -/
def parse_obsidian_args (argv : List Str) : Option Str × List (Str × Str) × List Str :=
  let pf := argsLoop (argv.drop 2) ([], [])
  (argv.get? 1, pf.1, pf.2)

/-- Single-character Python str.replace: each occurrence of the character is
replaced by the given string. -/
def replaceChar (s : Str) (c : Char) (new : Str) : Str :=
  (s.map (fun x => if x == c then new else [x])).flatten

/-- The escaping of _build_command: backslashes doubled first, then double
quotes backslash-escaped. -/
def escapeVal (v : Str) : Str :=
  replaceChar (replaceChar v bsC [bsC, bsC]) dqC [bsC, dqC]

/-- Python string comparison: lexicographic on code points. -/
def lexLe : Str → Str → Bool
  | [], _ => true
  | _ :: _, [] => false
  | a :: s, b :: t => if a = b then lexLe s t else decide (a.toNat < b.toNat)

/-- Insertion into a sorted list of strings. -/
def insertLex (x : Str) : List Str → List Str
  | [] => [x]
  | y :: ys => if lexLe x y then x :: y :: ys else y :: insertLex x ys

/-- Model of Python sorted on strings; on the duplicate-free flag sets of
this development any comparison sort produces this result. -/
def sortLex : List Str → List Str
  | [] => []
  | x :: xs => insertLex x (sortLex xs)

/-- Source: _build_command.  Rebuild a command line: base, subcommand, each
parameter as key="escaped value" in mapping order, then the flags in sorted
order, all joined by single spaces. -/
def build_command (base_cmd command : Str) (params : List (Str × Str)) (flags : List Str) : Str :=
  let parts := base_cmd :: command ::
    (params.map (fun p => p.1 ++ '=' :: dqC :: (escapeVal p.2 ++ [dqC]))) ++ sortLex flags
  (List.intersperse [' '] parts).flatten

/-- Lexer states of the shlex model: between tokens, inside a word, inside
single quotes, inside double quotes. -/
inductive SMode
  | out
  | word
  | quoteS
  | quoteD
deriving DecidableEq

/-- The whitespace set of shlex. -/
def shWs (c : Char) : Bool := c = ' ' || c = '\t' || c = '\r' || c = '\n'

/-- State machine of Python shlex in POSIX mode with whitespace splitting,
as shlex.split uses it.  cur is the current token reversed, acc the finished
tokens reversed.  Single quotes take everything literally; double quotes
take everything literally except a backslash, which escapes a backslash or a
double quote and is otherwise kept together with the following character;
outside quotes a backslash makes the following character literal.  An open
quote or a trailing backslash at the end of input is a ValueError, `none`
here. -/
def shlexGo : Str → SMode → Str → List Str → Option (List Str)
  | [], .out, _, acc => some acc.reverse
  | [], .word, cur, acc => some (cur.reverse :: acc).reverse
  | [], .quoteS, _, _ => none
  | [], .quoteD, _, _ => none
  | c :: rest, .out, cur, acc =>
    if shWs c then shlexGo rest .out cur acc
    else if c = sqC then shlexGo rest .quoteS cur acc
    else if c = dqC then shlexGo rest .quoteD cur acc
    else if c = bsC then
      match rest with
      | [] => none
      | d :: rest2 => shlexGo rest2 .word (d :: cur) acc
    else shlexGo rest .word (c :: cur) acc
  | c :: rest, .word, cur, acc =>
    if shWs c then shlexGo rest .out [] (cur.reverse :: acc)
    else if c = sqC then shlexGo rest .quoteS cur acc
    else if c = dqC then shlexGo rest .quoteD cur acc
    else if c = bsC then
      match rest with
      | [] => none
      | d :: rest2 => shlexGo rest2 .word (d :: cur) acc
    else shlexGo rest .word (c :: cur) acc
  | c :: rest, .quoteS, cur, acc =>
    if c = sqC then shlexGo rest .word cur acc
    else shlexGo rest .quoteS (c :: cur) acc
  | c :: rest, .quoteD, cur, acc =>
    if c = dqC then shlexGo rest .word cur acc
    else if c = bsC then
      match rest with
      | [] => none
      | d :: rest2 =>
        if d = dqC ∨ d = bsC then shlexGo rest2 .quoteD (d :: cur) acc
        else shlexGo rest2 .quoteD (d :: bsC :: cur) acc
    else shlexGo rest .quoteD (c :: cur) acc

/-- Model of Python shlex.split in POSIX mode (how the source tokenizes
command lines). -/
def shlexSplit (s : Str) : Option (List Str) := shlexGo s .out [] []

/-- Source constant CHUNK_SIZE (characters per chunk). -/
def CHUNK_SIZE : Nat := 800

/-- One dispatched call of the chunked retry: the subcommand, parameters and
flags handed to _build_command. -/
structure Call where
  cmd : Str
  params : List (Str × Str)
  flags : List Str
deriving DecidableEq, Repr

/-- Python truthiness of an optional string: None and the empty string are
falsy. -/
def truthy : Option Str → Bool
  | none => false
  | some s => !s.isEmpty

/-- Python `a or b` on optional strings: the first operand unless falsy. -/
def orFalsy (a b : Option Str) : Option Str :=
  if truthy a then a else b

/-- Recursion core of Python str.replace; the fuel only bounds the recursion
depth, the input length is always enough because every step consumes at
least one character. -/
def replaceStrGo (pat new : Str) : Nat → Str → Str
  | 0, s => s
  | _ + 1, [] => []
  | fuel + 1, c :: rest =>
    if pat ≠ [] ∧ pat.isPrefixOf (c :: rest) then
      new ++ replaceStrGo pat new fuel ((c :: rest).drop pat.length)
    else c :: replaceStrGo pat new fuel rest

/-- Python str.replace for a pattern string: left-to-right, non-overlapping
replacement of every occurrence. -/
def replaceStr (pat new : Str) (s : Str) : Str :=
  replaceStrGo pat new s.length s

/-- Python str.splitlines restricted to the separators of splitLinesU: the
empty string yields no lines, and the empty line after a final separator is
not produced. -/
def splitlines (s : Str) : List Str :=
  if s = [] then []
  else
    let ls := splitLinesU s
    if ls.getLast? = some [] then ls.dropLast else ls

/-- The post-chunk-0 output scan of _chunked_retry for create, unique and
base:create without a file target: walk the output lines; on a line starting
with "Created " or ending in ".md", the candidate is the line with every
"Created " occurrence removed and whitespace stripped; the first non-empty
candidate wins. -/
def scanCreated : List Str → Option Str
  | [] => none
  | line :: rest =>
    if "Created ".data.isPrefixOf line ∨ ".md".data.isSuffixOf line then
      let candidate := strip (replaceStr "Created ".data [] line)
      if candidate ≠ [] then some candidate else scanCreated rest
    else scanCreated rest

/-- The per-chunk call construction of the _chunked_retry loop: chunk 0
replays the original subcommand with the original parameters and flags and
only the content replaced; later chunks switch to the follow-up subcommand,
add the inline flag, drop the creation-only flags and the template
parameter, and re-target plain append calls from the original parameters. -/
def chunkCall (command : Str) (params : List (Str × Str)) (flags : List Str)
    (followup_cmd : Str) (file_param : Option Str) (i : Nat) (chunk : Str) : Call :=
  let chunk_params := dinsert params "content".data chunk
  if i = 0 then
    { cmd := command, params := chunk_params, flags := flags }
  else
    let cmd := followup_cmd
    let chunk_flags := fadd flags "inline".data
    let chunk_flags := fdiscard chunk_flags "overwrite".data
    let chunk_flags := fdiscard chunk_flags "template".data
    let chunk_flags := fdiscard chunk_flags "open".data
    let chunk_flags := fdiscard chunk_flags "newtab".data
    let chunk_params := dpop chunk_params "template".data
    let chunk_params :=
      if cmd = "append".data ∧ truthy file_param = true then
        if (dget params "path".data).isSome then
          dpop (dinsert chunk_params "path".data ((dget params "path".data).getD [])) "name".data
        else if (dget params "name".data).isSome then
          dpop (dinsert chunk_params "file".data ((dget params "name".data).getD [])) "name".data
        else if (dget params "file".data).isSome then
          dpop (dinsert chunk_params "file".data ((dget params "file".data).getD [])) "name".data
        else dpop chunk_params "name".data
      else chunk_params
    { cmd := cmd, params := chunk_params, flags := chunk_flags }

/-- The chunk loop of _chunked_retry.  The oracle `run` stands for
_run_with_output applied to the shlex-split built command line and returns
the filtered output text.  The loop yields the dispatched calls paired with
their outputs, threading the file_param variable the source mutates after
chunk 0. -/
def retryLoop (run : Str → Str) (command : Str) (params : List (Str × Str))
    (flags : List Str) (followup_cmd base_cmd : Str) :
    Nat → Option Str → List Str → List (Call × Str)
  | _, _, [] => []
  | i, file_param, chunk :: rest =>
    let call := chunkCall command params flags followup_cmd file_param i chunk
    let output := run (build_command base_cmd call.cmd call.params call.flags)
    let file_param2 :=
      if i = 0 ∧ (command = "create".data ∨ command = "unique".data ∨ command = "base:create".data)
          ∧ truthy file_param = false then
        match scanCreated (splitlines output) with
        | some c => some c
        | none => file_param
      else file_param
    (call, output) :: retryLoop run command params flags followup_cmd base_cmd (i + 1) file_param2 rest

/-- Source: _chunked_retry.  Splits the content at CHUNK_SIZE, reverses the
chunk order for the prepend family, chooses the follow-up subcommand and
dispatches every chunk in order.  Returned are the dispatched calls paired
with their outputs; the source returns the concatenated outputs, see
chunked_retry_output. -/
def chunked_retry (run : Str → Str) (base_cmd command : Str)
    (params : List (Str × Str)) (flags : List Str) : List (Call × Str) :=
  let content := (dget params "content".data).getD []
  let chunks := split_content content CHUNK_SIZE
  let file_param := orFalsy (dget params "path".data)
    (orFalsy (dget params "name".data) (dget params "file".data))
  let is_pre := command = "prepend".data ∨ command = "daily:prepend".data
  let chunks2 := if is_pre then chunks.reverse else chunks
  let followup_cmd :=
    if is_pre then command
    else if command = "daily:append".data ∨ command = "daily:prepend".data then "daily:append".data
    else "append".data
  retryLoop run command params flags followup_cmd base_cmd 0 file_param chunks2

/-- The return value of _chunked_retry: the outputs of all chunk executions
joined. -/
def chunked_retry_output (run : Str → Str) (base_cmd command : Str)
    (params : List (Str × Str)) (flags : List Str) : Str :=
  ((chunked_retry run base_cmd command params flags).map (fun p => p.2)).flatten

/-- The timestamp-entry test of the token-file grammar, as a Boolean: at
least ten leading ASCII digits, a colon, and a non-empty rest.  classifyLine
classifies a line as timed exactly when this holds. -/
def timedPatB (s : Str) : Bool :=
  match s.drop (s.takeWhile Char.isDigit).length with
  | ':' :: tl => decide (10 ≤ (s.takeWhile Char.isDigit).length) && !tl.isEmpty
  | _ => false

/-- Invariants of the entries parse_token_file produces: tokens are stripped
and free of line separators, and each kind carries the matching timestamp
shape; unused tokens additionally record why they did not classify as
permanent or timed. -/
def WFEntry (e : TokenEntry) : Prop :=
  strip e.token = e.token
  ∧ (∀ c ∈ e.token, c ≠ '\n' ∧ c ≠ '\r')
  ∧ (e.kind = Kind.permanent → e.timestamp = none)
  ∧ (e.kind = Kind.timed → e.token ≠ [] ∧ ∃ ts, e.timestamp = some ts)
  ∧ (e.kind = Kind.unused → e.token ≠ [] ∧ e.token.head? ≠ some '#'
      ∧ permTag.isPrefixOf e.token = false ∧ timedPatB e.token = false
      ∧ e.timestamp = none)

/-- Boolean lower bound on the optional timestamp of an entry; entries
without timestamp pass. -/
def tsAtLeastB (b : Nat) (e : TokenEntry) : Bool :=
  match e.timestamp with
  | some ts => decide (b ≤ ts)
  | none => true

/-- The entry a written entry reads back as: its written line classified
again. -/
def reparseEntry (e : TokenEntry) : TokenEntry := classifyLine (entryLine e)

/-- A token that shlex passes through verbatim: non-empty, without
whitespace, quotes or backslashes. -/
def plainTok (s : Str) : Prop :=
  s ≠ [] ∧ ∀ c ∈ s, shWs c = false ∧ c ≠ sqC ∧ c ≠ dqC ∧ c ≠ bsC

/-- A string the shlex machine consumes from between-token state into an
in-word state holding exactly the given content, whatever follows. -/
def ConsumeTo (t w : Str) : Prop :=
  ∀ rest cur acc, shlexGo (t ++ rest) SMode.out cur acc
    = shlexGo rest SMode.word (w.reverse ++ cur) acc

theorem rfindNl_lt {s : Str} {stop k : Nat} (h : rfindNl s stop = some k) : k < stop := by
  induction stop with
  | zero => simp [rfindNl] at h
  | succ n ih =>
    rw [rfindNl] at h
    split at h
    · cases h; omega
    · exact Nat.lt_succ_of_lt (ih h)

theorem cutOf_pos {content : Str} {m : Nat} (hm : 0 < m) : 0 < cutOf content m := by
  cases h : rfindNl content m with
  | none => simp [cutOf, h]; omega
  | some k =>
    cases k with
    | zero => simp [cutOf, h]; omega
    | succ k2 => simp [cutOf, h]

theorem cutOf_le {content : Str} {m : Nat} : cutOf content m ≤ m := by
  cases h : rfindNl content m with
  | none => simp [cutOf, h]
  | some k =>
    cases k with
    | zero => simp [cutOf, h]
    | succ k2 => simp [cutOf, h]; have := rfindNl_lt h; omega

theorem splitGo_spec {m : Nat} (hm : 0 < m) :
    ∀ fuel content, content.length ≤ fuel →
      (splitGo fuel content m).flatten = content ∧
      ∀ ch ∈ splitGo fuel content m, ch.length ≤ m := by
  intro fuel
  induction fuel with
  | zero =>
    intro content hlen
    have : content = [] := List.length_eq_zero.mp (Nat.le_zero.mp hlen)
    subst this
    simp [splitGo]
  | succ f ih =>
    intro content hlen
    rw [splitGo]
    by_cases h0 : content = []
    · simp [h0]
    · rw [if_neg h0]
      by_cases h1 : content.length ≤ m
      · simp [h1]
      · rw [if_neg h1]
        have hcutpos : 0 < cutOf content m := cutOf_pos hm
        have hcutle : cutOf content m ≤ m := cutOf_le
        have hrest : (content.drop (cutOf content m)).length ≤ f := by
          rw [List.length_drop]; omega
        obtain ⟨ihj, ihb⟩ := ih (content.drop (cutOf content m)) hrest
        constructor
        · simp only [List.flatten_cons, ihj, List.take_append_drop]
        · intro ch hch
          rcases List.mem_cons.mp hch with hh | ht
          · subst hh
            simp only [List.length_take]
            omega
          · exact ihb ch ht

/-- C3: for every content and positive chunk size the produced chunks
concatenate back to the content in order, and every chunk except possibly
the last is at most the chunk size long. -/
theorem split_content_spec (content : Str) (m : Nat) (hm : 0 < m) :
    (split_content content m).flatten = content ∧
      ∀ ch ∈ (split_content content m).dropLast, ch.length ≤ m := by
  rw [split_content]
  by_cases h : content.length ≤ m
  · simp [h]
  · rw [if_neg h]
    obtain ⟨hj, hb⟩ := splitGo_spec hm content.length content le_rfl
    exact ⟨hj, fun ch hch => hb ch (List.dropLast_sublist _ |>.subset hch)⟩

/-- Witness for split_content_spec at a concrete input. -/
theorem split_content_spec_witness :
    (split_content "ab\ncd".data 3).flatten = "ab\ncd".data ∧
      ∀ ch ∈ (split_content "ab\ncd".data 3).dropLast, ch.length ≤ 3 :=
  split_content_spec "ab\ncd".data 3 (by decide)

theorem rfindNl_eq_some_of {s : Str} {K m : Nat} (hK : K < m)
    (hc : s.get? K = some '\n')
    (hmax : ∀ j, j < m → s.get? j = some '\n' → j ≤ K) :
    rfindNl s m = some K := by
  induction m with
  | zero => omega
  | succ n ih =>
    rw [rfindNl]
    by_cases hn : s.get? n = some '\n'
    · rw [if_pos hn]
      have h1 : n ≤ K := hmax n (Nat.lt_succ_self n) hn
      have h2 : K = n := by omega
      rw [h2]
    · rw [if_neg hn]
      have hKn : K ≠ n := fun h => hn (h ▸ hc)
      exact ih (by omega) (fun j hj hcj => hmax j (Nat.lt_succ_of_lt hj) hcj)

theorem rfindNl_none_or_zero {s : Str} {m : Nat}
    (h : ∀ j, 0 < j → j < m → s.get? j ≠ some '\n') :
    rfindNl s m = none ∨ rfindNl s m = some 0 := by
  induction m with
  | zero => left; rfl
  | succ n ih =>
    rw [rfindNl]
    by_cases hn : s.get? n = some '\n'
    · rw [if_pos hn]
      right
      by_cases h0 : n = 0
      · rw [h0]
      · exact absurd hn (h n (by omega) (Nat.lt_succ_self n))
    · rw [if_neg hn]
      exact ih (fun j hj hjn => h j hj (Nat.lt_succ_of_lt hjn))

theorem splitGo_fuel {m : Nat} (hm : 0 < m) :
    ∀ f g c, c.length ≤ f → c.length ≤ g → splitGo f c m = splitGo g c m := by
  intro f
  induction f with
  | zero =>
    intro g c hf _
    have : c = [] := List.length_eq_zero.mp (Nat.le_zero.mp hf)
    subst this
    cases g <;> simp [splitGo]
  | succ f ih =>
    intro g c hf hg
    cases g with
    | zero =>
      have : c = [] := List.length_eq_zero.mp (Nat.le_zero.mp hg)
      subst this
      simp [splitGo]
    | succ g =>
      rw [splitGo, splitGo]
      by_cases h0 : c = []
      · simp [h0]
      · rw [if_neg h0, if_neg h0]
        by_cases h1 : c.length ≤ m
        · rw [if_pos h1, if_pos h1]
        · rw [if_neg h1, if_neg h1]
          have hcut : 0 < cutOf c m := cutOf_pos hm
          have : (c.drop (cutOf c m)).length ≤ f := by
            rw [List.length_drop]; omega
          have h2 : (c.drop (cutOf c m)).length ≤ g := by
            rw [List.length_drop]; omega
          rw [ih g (c.drop (cutOf c m)) this h2]

theorem splitGo_eq_split_content {m : Nat} {c : Str} (hc : c ≠ []) :
    splitGo c.length c m = split_content c m := by
  rw [split_content]
  by_cases h : c.length ≤ m
  · rw [if_pos h]
    obtain ⟨f, hf⟩ := Nat.exists_eq_succ_of_ne_zero
      (fun h0 => hc (List.length_eq_zero.mp h0))
    rw [hf, splitGo, if_neg hc]
    simp [h]
  · rw [if_neg h]

theorem split_content_step {content : Str} {m : Nat} (hm : 0 < m)
    (hl : m < content.length) :
    split_content content m
      = content.take (cutOf content m)
        :: split_content (content.drop (cutOf content m)) m := by
  have hlen0 : content ≠ [] := by
    intro h; rw [h] at hl; simp at hl
  obtain ⟨f, hf⟩ := Nat.exists_eq_succ_of_ne_zero
    (fun h0 => hlen0 (List.length_eq_zero.mp h0))
  have hcutpos : 0 < cutOf content m := cutOf_pos hm
  have hcutle : cutOf content m ≤ m := cutOf_le
  have hrest0 : content.drop (cutOf content m) ≠ [] := by
    intro h
    have := congrArg List.length h
    rw [List.length_drop] at this
    simp at this
    omega
  rw [split_content, if_neg (by omega), hf, splitGo, if_neg hlen0, if_neg (by omega)]
  have h1 : (content.drop (cutOf content m)).length ≤ f := by
    rw [List.length_drop]; omega
  rw [splitGo_fuel hm f (content.drop (cutOf content m)).length _ h1 le_rfl,
    splitGo_eq_split_content hrest0]

/-- C4 (amended): a splitting step on remaining content longer than the
chunk size cuts after the last newline found at a positive index among the
first chunk-size characters, retaining that newline at the end of the chunk,
and hard-cuts exactly at the chunk size when no newline occurs at a positive
index there; a newline at index 0 is treated like no newline at all by the
source's `cut <= 0` guard. -/
theorem split_step (content : Str) (m : Nat) (hm : 0 < m) (hl : m < content.length) :
    (∀ K, 0 < K → K < m → content.get? K = some '\n' →
        (∀ j, j < m → content.get? j = some '\n' → j ≤ K) →
        split_content content m
            = content.take (K + 1) :: split_content (content.drop (K + 1)) m
          ∧ (content.take (K + 1)).getLast? = some '\n')
    ∧ ((∀ j, 0 < j → j < m → content.get? j ≠ some '\n') →
        split_content content m
          = content.take m :: split_content (content.drop m) m) := by
  constructor
  · intro K hK0 hKm hc hmax
    have hfind : rfindNl content m = some K := rfindNl_eq_some_of hKm hc hmax
    have hcut : cutOf content m = K + 1 := by
      obtain ⟨K2, rfl⟩ := Nat.exists_eq_succ_of_ne_zero (by omega : K ≠ 0)
      simp [cutOf, hfind]
    constructor
    · have hstep := split_content_step hm hl
      rw [hcut] at hstep
      exact hstep
    · have hKlen : K < content.length := by omega
      have hlt : (content.take (K + 1)).length = K + 1 := by
        rw [List.length_take]; omega
      rw [List.getLast?_eq_getElem?, hlt]
      simp only [Nat.add_sub_cancel]
      rw [List.getElem?_take, if_pos (by omega : K < K + 1)]
      rw [← List.get?_eq_getElem?]
      exact hc
  · intro hno
    have hcut : cutOf content m = m := by
      rcases rfindNl_none_or_zero hno with h | h <;> simp [cutOf, h]
    have hstep := split_content_step hm hl
    rw [hcut] at hstep
    exact hstep

/-- Witness for split_step at a concrete input. -/
theorem split_step_witness :
    split_content "ab\ncde".data 3
        = "ab\ncde".data.take 3 :: split_content ("ab\ncde".data.drop 3) 3
      ∧ ("ab\ncde".data.take 3).getLast? = some '\n' :=
  (split_step "ab\ncde".data 3 (by decide) (by decide)).1 2 (by decide) (by decide)
    (by decide) (by intro j hj _; omega)

/-- C4 counterexample: with content newline-a-b and chunk size 2 the last
(and only) newline among the first two characters sits at index 0, so the
claim as stated demands the cut after it (first chunk exactly the newline);
the code instead hard-cuts at the chunk size because its guard also treats
index 0 as not found. -/
theorem split_step_cex :
    (['\n', 'a', 'b'] : Str).get? 0 = some '\n'
      ∧ (['\n', 'a', 'b'] : Str).get? 1 ≠ some '\n'
      ∧ split_content ['\n', 'a', 'b'] 2 = [['\n', 'a'], ['b']]
      ∧ split_content ['\n', 'a', 'b'] 2
          ≠ ['\n', 'a', 'b'].take (0 + 1)
            :: split_content (['\n', 'a', 'b'].drop (0 + 1)) 2 := by
  refine ⟨by decide, by decide, by decide, by decide⟩

theorem dget_cons (p : Str × Str) (d : List (Str × Str)) (k : Str) :
    dget (p :: d) k = if p.1 == k then some p.2 else dget d k := by
  cases h : p.1 == k
  · simp [dget, List.find?_cons, h]
  · simp [dget, List.find?_cons, h]

theorem dget_map_replace {d : List (Str × Str)} {k v k2 : Str} (hne : k2 ≠ k) :
    dget (d.map (fun p => if p.1 == k then (k, v) else p)) k2 = dget d k2 := by
  induction d with
  | nil => rfl
  | cons p d ih =>
    simp only [List.map_cons]
    rw [dget_cons, dget_cons]
    by_cases h : (p.1 == k) = true
    · rw [if_pos h]
      have h1 : ¬(((k, v) : Str × Str).1 == k2) = true := by
        simp only [beq_iff_eq]
        exact fun e => hne e.symm
      have h2 : ¬(p.1 == k2) = true := by
        simp only [beq_iff_eq] at h ⊢
        rw [h]
        exact fun e => hne e.symm
      rw [if_neg h1, if_neg h2]
      exact ih
    · rw [if_neg h]
      split
      · rfl
      · exact ih

theorem dget_append_ne {d : List (Str × Str)} {k v k2 : Str} (hne : k2 ≠ k) :
    dget (d ++ [(k, v)]) k2 = dget d k2 := by
  induction d with
  | nil =>
    simp only [List.nil_append]
    rw [dget_cons, if_neg (by simp only [beq_iff_eq]; exact fun e => hne e.symm)]
  | cons p d ih =>
    rw [List.cons_append, dget_cons, dget_cons]
    split
    · rfl
    · exact ih

theorem dget_dinsert_self (d : List (Str × Str)) (k v : Str) :
    dget (dinsert d k v) k = some v := by
  rw [dinsert]
  by_cases hany : (d.any (fun p => p.1 == k)) = true
  · rw [if_pos hany]
    induction d with
    | nil => simp at hany
    | cons p d ih =>
      by_cases h : (p.1 == k) = true
      · simp only [List.map_cons, if_pos h]
        rw [dget_cons]
        simp
      · simp only [List.map_cons, if_neg h]
        rw [dget_cons, if_neg h]
        exact ih (by simpa [List.any_cons, h] using hany)
  · rw [if_neg hany]
    induction d with
    | nil => simp [dget_cons]
    | cons p d ih =>
      simp only [List.any_cons, Bool.or_eq_true, not_or] at hany
      rw [List.cons_append, dget_cons, if_neg (by simpa using hany.1)]
      exact ih (by simpa using hany.2)

theorem dget_dinsert_ne (d : List (Str × Str)) (k v k2 : Str) (hne : k2 ≠ k) :
    dget (dinsert d k v) k2 = dget d k2 := by
  rw [dinsert]
  split
  · exact dget_map_replace hne
  · exact dget_append_ne hne

theorem dget_dpop_self (d : List (Str × Str)) (k : Str) :
    dget (dpop d k) k = none := by
  induction d with
  | nil => rfl
  | cons p d ih =>
    rw [dpop, List.filter]
    by_cases h : (p.1 == k) = true
    · simpa [bne, h] using ih
    · simp only [bne, h, Bool.not_false]
      rw [dget_cons, if_neg h]
      exact ih

theorem dget_dpop_ne (d : List (Str × Str)) (k k2 : Str) (hne : k2 ≠ k) :
    dget (dpop d k) k2 = dget d k2 := by
  induction d with
  | nil => rfl
  | cons p d ih =>
    rw [dpop, List.filter]
    by_cases h : (p.1 == k) = true
    · have hp : ¬(p.1 == k2) = true := by
        simp only [beq_iff_eq] at h ⊢
        rw [h]
        exact fun e => hne e.symm
      simp only [bne, h, Bool.not_true]
      rw [dget_cons, if_neg hp]
      exact ih
    · simp only [bne, h, Bool.not_false]
      rw [dget_cons, dget_cons]
      split
      · rfl
      · exact ih

theorem mem_fdiscard {fs : List Str} {x f : Str} :
    f ∈ fdiscard fs x ↔ f ∈ fs ∧ f ≠ x := by
  simp [fdiscard, List.mem_filter, bne_iff_ne]

theorem mem_fadd {fs : List Str} {x f : Str} :
    f ∈ fadd fs x ↔ f ∈ fs ∨ f = x := by
  rw [fadd]
  by_cases h : fs.any (fun y => y == x)
  · rw [if_pos h]
    simp only [List.any_eq_true, beq_iff_eq] at h
    obtain ⟨y, hy, rfl⟩ := h
    constructor
    · exact Or.inl
    · rintro (hf | rfl)
      · exact hf
      · exact hy
  · rw [if_neg h]
    simp

theorem get_zero_headI (l : List Str) (h : 0 < l.length) : l.get ⟨0, h⟩ = l.headI := by
  cases l with
  | nil => simp at h
  | cons a as => rfl

theorem chunkCall_zero (command : Str) (params : List (Str × Str)) (flags : List Str)
    (fu : Str) (fp : Option Str) (chunk : Str) :
    chunkCall command params flags fu fp 0 chunk
      = { cmd := command, params := dinsert params "content".data chunk, flags := flags } := rfl

theorem chunkCall_succ_cmd {command fu : Str} {params : List (Str × Str)} {flags : List Str}
    {fp : Option Str} {i : Nat} {chunk : Str} (hi : i ≠ 0) :
    (chunkCall command params flags fu fp i chunk).cmd = fu := by
  simp only [chunkCall, if_neg hi]

theorem chunkCall_succ_flags {command fu : Str} {params : List (Str × Str)} {flags : List Str}
    {fp : Option Str} {i : Nat} {chunk : Str} (hi : i ≠ 0) :
    (chunkCall command params flags fu fp i chunk).flags
      = fdiscard (fdiscard (fdiscard (fdiscard (fadd flags "inline".data) "overwrite".data)
          "template".data) "open".data) "newtab".data := by
  simp only [chunkCall, if_neg hi]

theorem chunkCall_succ_flag_mem {command fu : Str} {params : List (Str × Str)} {flags : List Str}
    {fp : Option Str} {i : Nat} {chunk : Str} (hi : i ≠ 0) (f : Str) :
    (f ∈ (chunkCall command params flags fu fp i chunk).flags
      ↔ (f = "inline".data ∨ f ∈ flags)
        ∧ ¬(f = "overwrite".data ∨ f = "template".data ∨ f = "open".data ∨ f = "newtab".data)) := by
  rw [chunkCall_succ_flags hi]
  simp only [mem_fdiscard, mem_fadd]
  tauto

theorem chunkCall_succ_template {command fu : Str} {params : List (Str × Str)} {flags : List Str}
    {fp : Option Str} {i : Nat} {chunk : Str} (hi : i ≠ 0) :
    dget (chunkCall command params flags fu fp i chunk).params "template".data = none := by
  simp only [chunkCall, if_neg hi]
  split
  · split
    · rw [dget_dpop_ne _ _ _ (by decide), dget_dinsert_ne _ _ _ _ (by decide), dget_dpop_self]
    · split
      · rw [dget_dpop_ne _ _ _ (by decide), dget_dinsert_ne _ _ _ _ (by decide), dget_dpop_self]
      · split
        · rw [dget_dpop_ne _ _ _ (by decide), dget_dinsert_ne _ _ _ _ (by decide), dget_dpop_self]
        · rw [dget_dpop_ne _ _ _ (by decide), dget_dpop_self]
  · rw [dget_dpop_self]

theorem chunkCall_content (command : Str) (params : List (Str × Str)) (flags : List Str)
    (fu : Str) (fp : Option Str) (i : Nat) (chunk : Str) :
    dget (chunkCall command params flags fu fp i chunk).params "content".data = some chunk := by
  by_cases hi : i = 0
  · subst hi
    rw [chunkCall_zero]
    exact dget_dinsert_self _ _ _
  · simp only [chunkCall, if_neg hi]
    split
    · split
      · rw [dget_dpop_ne _ _ _ (by decide), dget_dinsert_ne _ _ _ _ (by decide),
          dget_dpop_ne _ _ _ (by decide), dget_dinsert_self]
      · split
        · rw [dget_dpop_ne _ _ _ (by decide), dget_dinsert_ne _ _ _ _ (by decide),
            dget_dpop_ne _ _ _ (by decide), dget_dinsert_self]
        · split
          · rw [dget_dpop_ne _ _ _ (by decide), dget_dinsert_ne _ _ _ _ (by decide),
              dget_dpop_ne _ _ _ (by decide), dget_dinsert_self]
          · rw [dget_dpop_ne _ _ _ (by decide), dget_dpop_ne _ _ _ (by decide), dget_dinsert_self]
    · rw [dget_dpop_ne _ _ _ (by decide), dget_dinsert_self]

theorem retryLoop_length (run : Str → Str) (command : Str) (params : List (Str × Str))
    (flags : List Str) (fu base : Str) :
    ∀ chunks (i : Nat) (fp : Option Str),
      (retryLoop run command params flags fu base i fp chunks).length = chunks.length := by
  intro chunks
  induction chunks with
  | nil => intro i fp; rfl
  | cons c cs ih =>
    intro i fp
    simp only [retryLoop, List.length_cons]
    rw [ih]

theorem retryLoop_get (run : Str → Str) (command : Str) (params : List (Str × Str))
    (flags : List Str) (fu base : Str) :
    ∀ chunks (j i : Nat) (fp : Option Str) (hj : j < chunks.length)
      (hj2 : j < (retryLoop run command params flags fu base i fp chunks).length),
      ∃ fp2, ((retryLoop run command params flags fu base i fp chunks).get ⟨j, hj2⟩).1
        = chunkCall command params flags fu fp2 (i + j) (chunks.get ⟨j, hj⟩) := by
  intro chunks
  induction chunks with
  | nil => intro j i fp hj; simp at hj
  | cons c cs ih =>
    intro j i fp hj hj2
    cases j with
    | zero => exact ⟨fp, rfl⟩
    | succ j =>
      have hjc : j < cs.length := by simpa using hj
      have hj3 : j < (retryLoop run command params flags fu base (i + 1)
          (if i = 0 ∧ (command = "create".data ∨ command = "unique".data
              ∨ command = "base:create".data) ∧ truthy fp = false then
            match scanCreated (splitlines (run (build_command base
                (chunkCall command params flags fu fp i c).cmd
                (chunkCall command params flags fu fp i c).params
                (chunkCall command params flags fu fp i c).flags))) with
            | some c2 => some c2
            | none => fp
          else fp) cs).length := by
        rw [retryLoop_length]
        exact hjc
      obtain ⟨fp2, hfp2⟩ := ih j (i + 1) _ hjc hj3
      refine ⟨fp2, ?_⟩
      have harith : i + (j + 1) = (i + 1) + j := by omega
      rw [harith]
      exact hfp2

/-- C5: in every chunked retry, chunk 0 is dispatched with the original
subcommand and the original parameters and flags with only the content
replaced by chunk 0's slice, while every later chunk is dispatched with the
follow-up subcommand (the unchanged subcommand for prepend and
daily:prepend, daily:append for daily:append, otherwise append), with the
inline flag added, the overwrite, template, open and newtab flags removed,
and the template parameter removed. -/
theorem chunk_dispatch (run : Str → Str) (base command : Str)
    (params : List (Str × Str)) (flags : List Str) (i : Nat)
    (hi : i < (chunked_retry run base command params flags).length) :
    (i = 0 →
      ((chunked_retry run base command params flags).get ⟨i, hi⟩).1
        = { cmd := command,
            params := dinsert params "content".data
              ((if command = "prepend".data ∨ command = "daily:prepend".data
                then (split_content ((dget params "content".data).getD []) CHUNK_SIZE).reverse
                else split_content ((dget params "content".data).getD []) CHUNK_SIZE).headI),
            flags := flags })
    ∧ (1 ≤ i →
        ((chunked_retry run base command params flags).get ⟨i, hi⟩).1.cmd
            = (if command = "prepend".data ∨ command = "daily:prepend".data then command
               else if command = "daily:append".data then "daily:append".data
               else "append".data)
          ∧ (∀ f, f ∈ ((chunked_retry run base command params flags).get ⟨i, hi⟩).1.flags
              ↔ (f = "inline".data ∨ f ∈ flags)
                ∧ ¬(f = "overwrite".data ∨ f = "template".data ∨ f = "open".data
                    ∨ f = "newtab".data))
          ∧ dget ((chunked_retry run base command params flags).get ⟨i, hi⟩).1.params
              "template".data = none) := by
  have hlen := retryLoop_length run command params flags
    (if command = "prepend".data ∨ command = "daily:prepend".data then command
     else if command = "daily:append".data ∨ command = "daily:prepend".data
       then "daily:append".data
     else "append".data) base
  have hfu : (if command = "prepend".data ∨ command = "daily:prepend".data then command
      else if command = "daily:append".data ∨ command = "daily:prepend".data
        then "daily:append".data
      else "append".data)
      = (if command = "prepend".data ∨ command = "daily:prepend".data then command
         else if command = "daily:append".data then "daily:append".data
         else "append".data) := by
    by_cases h1 : command = "prepend".data ∨ command = "daily:prepend".data
    · rw [if_pos h1, if_pos h1]
    · rw [if_neg h1, if_neg h1]
      by_cases h2 : command = "daily:append".data
      · rw [if_pos (Or.inl h2), if_pos h2]
      · rw [if_neg (by tauto), if_neg h2]
  have hi2 : i < (if command = "prepend".data ∨ command = "daily:prepend".data
      then (split_content ((dget params "content".data).getD []) CHUNK_SIZE).reverse
      else split_content ((dget params "content".data).getD []) CHUNK_SIZE).length := by
    have := hi
    simp only [chunked_retry] at this
    rw [hlen] at this
    split
    · next hp => simpa [if_pos hp] using this
    · next hp => simpa [if_neg hp] using this
  obtain ⟨fp2, hfp2⟩ := retryLoop_get run command params flags _ base _ i 0 _ hi2 hi
  constructor
  · intro h0
    subst h0
    simp only [chunked_retry]
    rw [hfp2, chunkCall_zero, get_zero_headI _ hi2]
  · intro h1
    have hne : 0 + i ≠ 0 := by omega
    refine ⟨?_, ?_, ?_⟩
    · simp only [chunked_retry]
      rw [hfp2, chunkCall_succ_cmd hne, hfu]
    · intro f
      simp only [chunked_retry]
      rw [hfp2]
      exact chunkCall_succ_flag_mem hne f
    · simp only [chunked_retry]
      rw [hfp2]
      exact chunkCall_succ_template hne

/-- Witness for chunk_dispatch at a concrete input. -/
theorem chunk_dispatch_witness :
    (0 = 0 →
      ((chunked_retry (fun _ => []) "obsidian".data "create".data
          [("content".data, "hi".data)] []).get ⟨0, by decide⟩).1
        = { cmd := "create".data,
            params := dinsert [("content".data, "hi".data)] "content".data
              ((if "create".data = "prepend".data ∨ "create".data = "daily:prepend".data
                then (split_content ((dget [("content".data, "hi".data)] "content".data).getD [])
                  CHUNK_SIZE).reverse
                else split_content ((dget [("content".data, "hi".data)] "content".data).getD [])
                  CHUNK_SIZE).headI),
            flags := [] })
    ∧ (1 ≤ 0 →
        ((chunked_retry (fun _ => []) "obsidian".data "create".data
            [("content".data, "hi".data)] []).get ⟨0, by decide⟩).1.cmd
            = (if "create".data = "prepend".data ∨ "create".data = "daily:prepend".data
                then "create".data
               else if "create".data = "daily:append".data then "daily:append".data
               else "append".data)
          ∧ (∀ f, f ∈ ((chunked_retry (fun _ => []) "obsidian".data "create".data
                [("content".data, "hi".data)] []).get ⟨0, by decide⟩).1.flags
              ↔ (f = "inline".data ∨ f ∈ ([] : List Str))
                ∧ ¬(f = "overwrite".data ∨ f = "template".data ∨ f = "open".data
                    ∨ f = "newtab".data))
          ∧ dget ((chunked_retry (fun _ => []) "obsidian".data "create".data
              [("content".data, "hi".data)] []).get ⟨0, by decide⟩).1.params
              "template".data = none) :=
  chunk_dispatch (fun _ => []) "obsidian".data "create".data
    [("content".data, "hi".data)] [] 0 (by decide)

theorem retryLoop_map_content (run : Str → Str) (command : Str)
    (params : List (Str × Str)) (flags : List Str) (fu base : Str) :
    ∀ chunks (i : Nat) (fp : Option Str),
      (retryLoop run command params flags fu base i fp chunks).map
          (fun pc => dget pc.1.params "content".data)
        = chunks.map some := by
  intro chunks
  induction chunks with
  | nil => intro i fp; rfl
  | cons c cs ih =>
    intro i fp
    simp only [retryLoop, List.map_cons]
    rw [chunkCall_content, ih]

theorem retryLoop_cmds (run : Str → Str) (command : Str)
    (params : List (Str × Str)) (flags : List Str) (fu base : Str) :
    ∀ chunks (i : Nat) (fp : Option Str) pc,
      pc ∈ retryLoop run command params flags fu base i fp chunks →
      pc.1.cmd = command ∨ pc.1.cmd = fu := by
  intro chunks
  induction chunks with
  | nil => intro i fp pc h; simp [retryLoop] at h
  | cons c cs ih =>
    intro i fp pc h
    simp only [retryLoop, List.mem_cons] at h
    rcases h with rfl | h
    · by_cases hi : i = 0
      · subst hi
        left
        rw [chunkCall_zero]
      · right
        exact chunkCall_succ_cmd hi
    · exact ih _ _ _ h

/-- C6: for a chunked retry of prepend or daily:prepend the dispatched
content slices are the split chunks in reverse order and every dispatched
call keeps the original prepend subcommand; for every other subcommand the
slices are dispatched in the original split order. -/
theorem chunk_order (run : Str → Str) (base command : Str)
    (params : List (Str × Str)) (flags : List Str) :
    ((command = "prepend".data ∨ command = "daily:prepend".data) →
      (chunked_retry run base command params flags).map
          (fun pc => dget pc.1.params "content".data)
          = ((split_content ((dget params "content".data).getD []) CHUNK_SIZE).reverse).map some
        ∧ ∀ pc ∈ chunked_retry run base command params flags, pc.1.cmd = command)
    ∧ (¬(command = "prepend".data ∨ command = "daily:prepend".data) →
      (chunked_retry run base command params flags).map
          (fun pc => dget pc.1.params "content".data)
        = (split_content ((dget params "content".data).getD []) CHUNK_SIZE).map some) := by
  constructor
  · intro hp
    constructor
    · simp only [chunked_retry, if_pos hp]
      exact retryLoop_map_content run command params flags _ base _ 0 _
    · intro pc hpc
      simp only [chunked_retry, if_pos hp] at hpc
      rcases retryLoop_cmds run command params flags command base _ 0 _ pc hpc with h | h
      · exact h
      · exact h
  · intro hp
    simp only [chunked_retry, if_neg hp]
    exact retryLoop_map_content run command params flags _ base _ 0 _

/-- Witness for chunk_order at a concrete input. -/
theorem chunk_order_witness :
    (chunked_retry (fun _ => []) "obsidian".data "prepend".data
        [("content".data, "hi".data)] []).map
        (fun pc => dget pc.1.params "content".data)
        = ((split_content ((dget [("content".data, "hi".data)] "content".data).getD [])
            CHUNK_SIZE).reverse).map some
      ∧ ∀ pc ∈ chunked_retry (fun _ => []) "obsidian".data "prepend".data
          [("content".data, "hi".data)] [], pc.1.cmd = "prepend".data :=
  (chunk_order (fun _ => []) "obsidian".data "prepend".data
    [("content".data, "hi".data)] []).1 (Or.inl rfl)

/-- C2: the output of chunk 0 of a target-less create is scanned and the
created path is found, but the discovered path is not carried on the
continuation append call: the continuation parameters hold no path, file or
name key at all, because the re-targeting block only copies parameters that
already existed in the original command.  The theorem evaluates the engine
at such an input: the scan finds Notes/test.md, yet call 1 is an append
whose parameters lack every file-targeting key. -/
theorem chunk_discovery_unused :
    scanCreated (splitlines ("Created Notes/test.md
".data)) = some "Notes/test.md".data
      ∧ (chunked_retry (fun _ => "Created Notes/test.md
".data) "obsidian".data "create".data
          [("content".data, List.replicate 799 'B' ++ '
' :: ['C'])] []).length = 2
      ∧ ((chunked_retry (fun _ => "Created Notes/test.md
".data) "obsidian".data "create".data
          [("content".data, List.replicate 799 'B' ++ '
' :: ['C'])] []).map
        (fun pc => (pc.1.cmd, dget pc.1.params "path".data, dget pc.1.params "file".data,
          dget pc.1.params "name".data))).drop 1 = [("append".data, none, none, none)] := by
  refine ⟨by decide, by decide, by decide⟩

theorem expiredB_false_iff (now : Nat) (e : TokenEntry) :
    expiredB now e = false
      ↔ (e.kind = Kind.timed → ∀ ts, e.timestamp = some ts → now - ts < SESSION_TIMEOUT) := by
  cases hk : e.kind <;> cases hts : e.timestamp <;>
    simp [expiredB, hk, hts, SESSION_TIMEOUT] <;> omega

theorem classify_timed_some (s : Str) :
    (classifyLine s).kind = Kind.timed → ∃ ts, (classifyLine s).timestamp = some ts := by
  simp only [classifyLine]
  split
  · intro h
    simp at h
  · split
    · split
      · intro _
        exact ⟨_, rfl⟩
      · intro h
        simp at h
    · intro h
      simp at h

theorem parse_timed_some {f : Option Str} :
    ∀ e ∈ parse_token_file f, e.kind = Kind.timed → ∃ ts, e.timestamp = some ts := by
  intro e he
  cases f with
  | none => simp [parse_token_file] at he
  | some text =>
    simp only [parse_token_file, List.mem_filterMap] at he
    obtain ⟨line, _, hline⟩ := he
    split at hline
    · exact absurd hline (by simp)
    · split at hline
      · exact absurd hline (by simp)
      · cases hline
        exact classify_timed_some _

theorem authScan_matched (now : Nat) (tok : Str) :
    ∀ l m, (authScan now tok l m).2.2
      = (m || l.any (fun e => !expiredB now e && e.token == tok)) := by
  intro l
  induction l with
  | nil => intro m; simp [authScan]
  | cons e rest ih =>
    intro m
    rw [authScan]
    by_cases hexp : expiredB now e = true
    · rw [if_pos hexp]
      simp only [List.any_cons, hexp, Bool.not_true, Bool.false_and, Bool.false_or]
      exact ih m
    · rw [if_neg hexp]
      have hexp2 : expiredB now e = false := by
        cases h : expiredB now e
        · rfl
        · exact absurd h hexp
      by_cases hc : m = false ∧ e.token = tok
      · rw [if_pos hc]
        obtain ⟨hm0, htok⟩ := hc
        subst hm0
        have hbeq : (e.token == tok) = true := by
          simp [htok]
        cases hk : e.kind <;>
          simp [ih, List.any_cons, hexp2, hbeq]
      · rw [if_neg hc]
        simp only []
        rw [ih]
        cases m with
        | true => simp
        | false =>
          have htok : e.token ≠ tok := by tauto
          have hbeq : (e.token == tok) = false := by
            simp [htok]
          simp [List.any_cons, hbeq]

/-- C1: authenticate returns true exactly when the token file, as parsed at
the start of the call, holds an entry whose token equals the candidate and
which is not expired at the call (Permanent, Unused, or Timed with
now - timestamp below the session timeout); and with the backing file absent
authenticate returns false. -/
theorem authenticate_iff (file : Option Str) (now : Nat) (tok : Str) :
    ((authenticate file now tok).1 = true
      ↔ ∃ e ∈ parse_token_file file, e.token = tok
          ∧ (e.kind = Kind.permanent ∨ e.kind = Kind.unused
             ∨ ∃ ts, e.kind = Kind.timed ∧ e.timestamp = some ts
                 ∧ now - ts < SESSION_TIMEOUT))
    ∧ (authenticate none now tok).1 = false := by
  constructor
  · simp only [authenticate]
    rw [authScan_matched now tok (parse_token_file file) false]
    simp only [Bool.false_or, List.any_eq_true]
    constructor
    · rintro ⟨e, he, hpred⟩
      simp only [Bool.and_eq_true, Bool.not_eq_true', beq_iff_eq] at hpred
      obtain ⟨hexp, htok⟩ := hpred
      refine ⟨e, he, htok, ?_⟩
      cases hk : e.kind
      · exact Or.inl rfl
      · obtain ⟨ts, hts⟩ := parse_timed_some e he hk
        exact Or.inr (Or.inr ⟨ts, rfl, hts,
          (expiredB_false_iff now e).mp hexp hk ts hts⟩)
      · exact Or.inr (Or.inl rfl)
    · rintro ⟨e, he, htok, hpred⟩
      refine ⟨e, he, ?_⟩
      simp only [Bool.and_eq_true, Bool.not_eq_true', beq_iff_eq]
      refine ⟨?_, htok⟩
      rw [expiredB_false_iff now e]
      intro hk ts hts
      rcases hpred with h | h | ⟨ts2, _, hts2, hlt⟩
      · rw [h] at hk; cases hk
      · rw [h] at hk; cases hk
      · rw [hts] at hts2; cases hts2; exact hlt
  · rfl

theorem authScan_after_match (now : Nat) (tok : Str) :
    ∀ l, (∀ e ∈ l, expiredB now e = false) →
      authScan now tok l true = (l, false, true) := by
  intro l
  induction l with
  | nil => intro _; rfl
  | cons e rest ih =>
    intro h
    rw [authScan, if_neg (by rw [h e (List.mem_cons_self e rest)]; simp),
      if_neg (by simp)]
    rw [ih (fun x hx => h x (List.mem_cons_of_mem e hx))]

theorem authScan_perm_first (now : Nat) (tok : Str) :
    ∀ l, (∀ e ∈ l, expiredB now e = false) →
      ∀ m0, l.find? (fun e => e.token == tok) = some m0 → m0.kind = Kind.permanent →
      authScan now tok l false = (l, false, true) := by
  intro l
  induction l with
  | nil => intro _ m0 hf; simp at hf
  | cons e rest ih =>
    intro h m0 hf hk
    have hexp : expiredB now e = false := h e (List.mem_cons_self e rest)
    by_cases hp : (e.token == tok) = true
    · simp only [List.find?_cons, hp] at hf
      cases hf
      rw [authScan, if_neg (by rw [hexp]; simp),
        if_pos ⟨rfl, by simpa using hp⟩]
      have hrest := authScan_after_match now tok rest
        (fun x hx => h x (List.mem_cons_of_mem e hx))
      simp only [hk, hrest]
    · simp only [List.find?_cons, Bool.of_not_eq_true hp] at hf
      have htok : ¬(e.token = tok) := by simpa using hp
      rw [authScan, if_neg (by rw [hexp]; simp), if_neg (by tauto)]
      rw [ih (fun x hx => h x (List.mem_cons_of_mem e hx)) m0 hf hk]

/-- C9 (amended): when no Timed entry of the store is expired at the call
and the first entry whose token equals the candidate is Permanent,
authenticate returns true and leaves the backing file byte-for-byte
unchanged (hence every entry with its kind, token, timestamp and position);
with an expired Timed entry present elsewhere in the store the claim as
stated fails, because the expiry sweep rewrites the store. -/
theorem permanent_no_mutation (file : Option Str) (now : Nat) (tok : Str)
    (hnoexp : ∀ e ∈ parse_token_file file, expiredB now e = false)
    (m0 : TokenEntry)
    (hfirst : (parse_token_file file).find? (fun e => e.token == tok) = some m0)
    (hperm : m0.kind = Kind.permanent) :
    authenticate file now tok = (true, file) := by
  simp only [authenticate]
  rw [authScan_perm_first now tok _ hnoexp m0 hfirst hperm]
  rfl

/-- Witness for permanent_no_mutation at a concrete input (Scenario A). -/
theorem permanent_no_mutation_witness :
    authenticate (some "permanent:tok1
".data) 1700000000 "tok1".data
      = (true, some "permanent:tok1
".data) :=
  permanent_no_mutation (some "permanent:tok1
".data) 1700000000 "tok1".data
    (by decide)
    { token := "tok1".data, kind := Kind.permanent, timestamp := none }
    (by decide) rfl

/-- C9 counterexample: with an expired timed entry next to the permanent
entry, authenticating the permanent token returns true but rewrites the
store (the sweep drops the expired entry), so the store is not left
unchanged as the claim, quantified over every store state, demands. -/
theorem permanent_no_mutation_cex :
    (authenticate (some "1000000000:old
permanent:tok1
".data) 2000000000 "tok1".data).1
        = true
      ∧ (authenticate (some "1000000000:old
permanent:tok1
".data) 2000000000 "tok1".data).2
          = some "permanent:tok1
".data
      ∧ some "permanent:tok1
".data ≠ some "1000000000:old
permanent:tok1
".data := by
  refine ⟨by decide, by decide, by decide⟩

theorem splitLinesU_cons_other {c : Char} (h1 : c ≠ '\r') (h2 : c ≠ '\n') (rest : Str) :
    splitLinesU (c :: rest) = match splitLinesU rest with
      | [] => [[c]]
      | l :: ls => (c :: l) :: ls := by
  rw [splitLinesU.eq_def]
  split <;> rename_i heq
  · exact absurd heq (by simp)
  · simp only [List.cons.injEq] at heq
    exact absurd heq.1 h1
  · simp only [List.cons.injEq] at heq
    exact absurd heq.1 h1
  · simp only [List.cons.injEq] at heq
    exact absurd heq.1 h2
  · simp only [List.cons.injEq] at heq
    obtain ⟨h3, h4⟩ := heq
    subst h3
    subst h4
    rfl

theorem splitLinesU_ne_nil (s : Str) : splitLinesU s ≠ [] := by
  rw [splitLinesU.eq_def]
  split
  · simp
  · simp
  · simp
  · simp
  · split <;> simp

theorem splitLinesU_cr {d : Char} (hd : d ≠ '\n') (rest2 : Str) :
    splitLinesU ('\r' :: d :: rest2) = [] :: splitLinesU (d :: rest2) := by
  rw [splitLinesU.eq_def]
  split <;> rename_i heq
  · exact absurd heq (by simp)
  · simp only [List.cons.injEq] at heq
    exact absurd heq.2.1 hd
  · simp only [List.cons.injEq] at heq
    rw [heq.2]
  · simp only [List.cons.injEq] at heq
    exact absurd heq.1 (by decide)
  · rename_i hnoA hnoR hnoN
    simp only [List.cons.injEq] at heq
    exact (hnoR heq.1.symm).elim

theorem splitLinesU_no_sep (s : Str) :
    ∀ l ∈ splitLinesU s, ∀ c ∈ l, c ≠ '\n' ∧ c ≠ '\r' := by
  induction s with
  | nil =>
    intro l hl
    simp [splitLinesU] at hl
    subst hl
    simp
  | cons c rest ih =>
    by_cases h1 : c = '\r'
    · subst h1
      cases rest with
      | nil =>
        intro l hl c2 hc2
        rw [show splitLinesU ['\r'] = [[], []] from rfl] at hl
        simp only [List.mem_cons, List.not_mem_nil, or_false] at hl
        rcases hl with rfl | rfl <;> simp at hc2
      | cons d rest2 =>
        by_cases hd : d = '\n'
        · subst hd
          intro l hl
          rw [show splitLinesU ('\r' :: '\n' :: rest2) = [] :: splitLinesU rest2 from rfl] at hl
          rcases List.mem_cons.mp hl with rfl | h
          · simp
          · intro c2 hc2
            have hsub : l ∈ splitLinesU ('\n' :: rest2) := by
              rw [show splitLinesU ('\n' :: rest2) = [] :: splitLinesU rest2 from rfl]
              exact List.mem_cons_of_mem _ h
            exact ih l hsub c2 hc2
        · intro l hl
          rw [splitLinesU_cr hd] at hl
          rcases List.mem_cons.mp hl with rfl | h
          · simp
          · exact ih l h
    · by_cases h2 : c = '\n'
      · subst h2
        intro l hl
        rw [show splitLinesU ('\n' :: rest) = [] :: splitLinesU rest from rfl] at hl
        rcases List.mem_cons.mp hl with rfl | h
        · simp
        · exact ih l h
      · intro l hl
        rw [splitLinesU_cons_other h1 h2] at hl
        rcases hsp : splitLinesU rest with _ | ⟨l0, ls⟩
        · exact absurd hsp (splitLinesU_ne_nil rest)
        · rw [hsp] at hl
          rcases List.mem_cons.mp hl with rfl | h
          · intro c2 hc2
            rcases List.mem_cons.mp hc2 with rfl | h3
            · exact ⟨h2, h1⟩
            · exact ih l0 (hsp ▸ List.mem_cons_self l0 ls) c2 h3
          · exact ih l (hsp ▸ List.mem_cons_of_mem l0 h)

theorem splitLinesU_append (l rest : Str) (h : ∀ c ∈ l, c ≠ '\n' ∧ c ≠ '\r') :
    splitLinesU (l ++ '\n' :: rest) = l :: splitLinesU rest := by
  induction l with
  | nil =>
    rw [List.nil_append]
    rfl
  | cons c l2 ih =>
    have hc := h c (List.mem_cons_self c l2)
    rw [List.cons_append, splitLinesU_cons_other hc.2 hc.1,
      ih (fun x hx => h x (List.mem_cons_of_mem c hx))]

theorem dropWhile_head_not {p : Char → Bool} {l : Str} :
    ∀ c ∈ (l.dropWhile p).head?, p c = false := by
  induction l with
  | nil => simp
  | cons c rest ih =>
    rw [List.dropWhile_cons]
    by_cases h : p c = true
    · rw [if_pos h]
      exact ih
    · rw [if_neg h]
      intro x hx
      simp only [List.head?_cons, Option.mem_def, Option.some.injEq] at hx
      subst hx
      simpa using h

theorem dropWhile_eq_self_of_head {p : Char → Bool} {l : Str}
    (h : ∀ c ∈ l.head?, p c = false) : l.dropWhile p = l := by
  cases l with
  | nil => rfl
  | cons c rest =>
    rw [List.dropWhile_cons, if_neg]
    rw [h c (by simp)]
    simp

theorem strip_eq_self {s : Str} (h1 : ∀ c ∈ s.head?, pyWs c = false)
    (h2 : ∀ c ∈ s.getLast?, pyWs c = false) : strip s = s := by
  rw [strip, dropWhile_eq_self_of_head h1, dropWhile_eq_self_of_head
    (by rw [List.head?_reverse]; exact h2), List.reverse_reverse]

theorem getLast?_of_suffix {l1 l2 : Str} (h : l1 <:+ l2) (hne : l1 ≠ []) :
    l2.getLast? = l1.getLast? := by
  obtain ⟨t, rfl⟩ := h
  rw [List.getLast?_append]
  cases hl : l1.getLast? with
  | none => exact absurd (List.getLast?_eq_none_iff.mp hl) hne
  | some c => rfl

theorem strip_getLast_not {s : Str} : ∀ c ∈ (strip s).getLast?, pyWs c = false := by
  rw [strip, List.getLast?_reverse]
  exact dropWhile_head_not

theorem strip_head_not {s : Str} : ∀ c ∈ (strip s).head?, pyWs c = false := by
  intro c hc
  rw [strip, List.head?_reverse] at hc
  by_cases hnil : ((s.dropWhile pyWs).reverse.dropWhile pyWs) = []
  · rw [hnil] at hc
    simp at hc
  · rw [← getLast?_of_suffix (List.dropWhile_suffix pyWs) hnil, List.getLast?_reverse] at hc
    exact dropWhile_head_not c hc

theorem strip_idem (s : Str) : strip (strip s) = strip s :=
  strip_eq_self strip_head_not strip_getLast_not

theorem strip_subset {s : Str} : ∀ x ∈ strip s, x ∈ s := by
  intro x hx
  rw [strip, List.mem_reverse] at hx
  have h1 := (List.dropWhile_sublist (l := (s.dropWhile pyWs).reverse) pyWs).subset hx
  rw [List.mem_reverse] at h1
  exact (List.dropWhile_sublist pyWs).subset h1

theorem strip_eq_nil_iff {s : Str} : strip s = [] ↔ ∀ c ∈ s, pyWs c = true := by
  constructor
  · intro h c hc
    rw [strip] at h
    rw [List.reverse_eq_nil_iff, List.dropWhile_eq_nil_iff] at h
    by_cases hin : c ∈ s.dropWhile pyWs
    · have := h c (by rw [List.mem_reverse]; exact hin)
      exact this
    · have hsplit := List.takeWhile_append_dropWhile pyWs s
      have : c ∈ s.takeWhile pyWs ++ s.dropWhile pyWs := by rw [hsplit]; exact hc
      rcases List.mem_append.mp this with h2 | h2
      · exact List.mem_takeWhile_imp h2
      · exact absurd h2 hin
  · intro h
    rw [strip, List.reverse_eq_nil_iff, List.dropWhile_eq_nil_iff]
    intro x hx
    rw [List.mem_reverse] at hx
    exact h x ((List.dropWhile_sublist pyWs).subset hx)

theorem isDigit_iff_toNat {c : Char} : c.isDigit = true ↔ 48 ≤ c.toNat ∧ c.toNat ≤ 57 := by
  simp [Char.isDigit, Char.toNat, UInt32.le_def, BitVec.le_def, UInt32.toNat]

theorem toNat_ofNat_digit {m : Nat} (h : m < 10) : (Char.ofNat (48 + m)).toNat = 48 + m := by
  interval_cases m <;> decide

theorem natDigits_ne_nil (n : Nat) : natDigits n ≠ [] := by
  rw [natDigits_eq]
  split
  · simp
  · simp

theorem natDigits_isDigit (n : Nat) : ∀ c ∈ natDigits n, c.isDigit = true := by
  induction n using Nat.strong_induction_on with
  | _ n ih =>
    rw [natDigits_eq]
    by_cases h : n < 10
    · rw [if_pos h]
      intro c hc
      simp only [List.mem_singleton] at hc
      subst hc
      rw [isDigit_iff_toNat, toNat_ofNat_digit h]
      omega
    · rw [if_neg h]
      intro c hc
      rcases List.mem_append.mp hc with h2 | h2
      · exact ih (n / 10) (Nat.div_lt_self (by omega) (by omega)) c h2
      · simp only [List.mem_singleton] at h2
        subst h2
        have hm : n % 10 < 10 := Nat.mod_lt n (by omega)
        rw [isDigit_iff_toNat, toNat_ofNat_digit hm]
        omega

theorem digit_ne {c x : Char} (hd : c.isDigit = true) (hx : 48 ≤ x.toNat → x.toNat ≤ 57 → False) :
    c ≠ x := by
  intro heq
  subst heq
  obtain ⟨h1, h2⟩ := isDigit_iff_toNat.mp hd
  exact hx h1 h2

theorem digit_not_ws {c : Char} (hd : c.isDigit = true) : pyWs c = false := by
  obtain ⟨h1, h2⟩ := isDigit_iff_toNat.mp hd
  cases hw : pyWs c
  · rfl
  · exfalso
    simp only [pyWs, Bool.or_eq_true, decide_eq_true_eq] at hw
    rcases hw with ((((h | h) | h) | h) | h) | h <;> (subst h; revert h1 h2; decide)

theorem digitsVal_append_single (a : Str) (c : Char) :
    digitsVal (a ++ [c]) = 10 * digitsVal a + (c.toNat - 48) := by
  rw [digitsVal, digitsVal, List.foldl_append]
  simp [Nat.mul_comm]

theorem digitsVal_natDigits (n : Nat) : digitsVal (natDigits n) = n := by
  induction n using Nat.strong_induction_on with
  | _ n ih =>
    rw [natDigits_eq]
    by_cases h : n < 10
    · rw [if_pos h]
      rw [show digitsVal [Char.ofNat (48 + n)]
          = (Char.ofNat (48 + n)).toNat - 48 from by simp [digitsVal]]
      rw [toNat_ofNat_digit h]
      omega
    · rw [if_neg h]
      rw [digitsVal_append_single, ih (n / 10) (Nat.div_lt_self (by omega) (by omega))]
      have hm : n % 10 < 10 := Nat.mod_lt n (by omega)
      rw [toNat_ofNat_digit hm]
      omega

theorem natDigits_len_ge (k : Nat) : ∀ n, 10 ^ k ≤ n → k + 1 ≤ (natDigits n).length := by
  induction k with
  | zero =>
    intro n _
    cases hl : natDigits n with
    | nil => exact absurd hl (natDigits_ne_nil n)
    | cons c cs => simp
  | succ k ih =>
    intro n hn
    have h10 : ¬ n < 10 := by
      have h1 : (10 : Nat) = 10 ^ 1 := (pow_one 10).symm
      have h2 : (10 : Nat) ^ 1 ≤ 10 ^ (k + 1) := Nat.pow_le_pow_right (by omega) (by omega)
      omega
    rw [natDigits_eq, if_neg h10, List.length_append]
    have hdiv : 10 ^ k ≤ n / 10 := by
      rw [Nat.le_div_iff_mul_le (by omega)]
      have : 10 ^ k * 10 = 10 ^ (k + 1) := by ring
      omega
    have := ih (n / 10) hdiv
    simp only [List.length_cons, List.length_nil]
    omega

theorem takeWhile_append_all {p : Char → Bool} {a : Str} (h : ∀ c ∈ a, p c = true) (b : Str) :
    (a ++ b).takeWhile p = a ++ b.takeWhile p := by
  induction a with
  | nil => simp
  | cons c a2 ih =>
    rw [List.cons_append, List.takeWhile_cons, if_pos (h c (List.mem_cons_self c a2)),
      ih (fun x hx => h x (List.mem_cons_of_mem c hx)), List.cons_append]

theorem head_not_perm_prefix {s : Str} {c : Char} (hd : s.head? = some c) (hc : c ≠ 'p') :
    permTag.isPrefixOf s = false := by
  cases h : permTag.isPrefixOf s
  · rfl
  · exfalso
    obtain ⟨t, ht⟩ := List.isPrefixOf_iff_prefix.mp h
    rw [← ht] at hd
    rw [show permTag = 'p' :: "ermanent:".data from rfl, List.cons_append,
      List.head?_cons] at hd
    exact hc (by simpa using hd.symm)

theorem stripped_head_not_ws {s : Str} (hidem : strip s = s) :
    ∀ c ∈ s.head?, pyWs c = false := by
  intro c hc
  rw [← hidem] at hc
  exact strip_head_not c hc

theorem stripped_getLast_not_ws {s : Str} (hidem : strip s = s) :
    ∀ c ∈ s.getLast?, pyWs c = false := by
  intro c hc
  rw [← hidem] at hc
  exact strip_getLast_not c hc

theorem strip_ne_nil_of_getLast {s : Str} {c : Char} (hg : s.getLast? = some c)
    (hc : pyWs c = false) : strip s ≠ [] := by
  intro h
  have hall := strip_eq_nil_iff.mp h
  have hmem : c ∈ s := List.mem_of_mem_getLast? (by rw [hg]; rfl)
  rw [hall c hmem] at hc
  cases hc

theorem classify_perm {tok : Str} (hs : strip tok = tok) :
    classifyLine (permTag ++ tok)
      = { token := tok, kind := Kind.permanent, timestamp := none } := by
  simp only [classifyLine]
  rw [if_pos (List.isPrefixOf_iff_prefix.mpr (List.prefix_append _ _)), List.drop_left, hs]

theorem classify_unused {tok : Str} (h1 : permTag.isPrefixOf tok = false)
    (h2 : timedPatB tok = false) :
    classifyLine tok = { token := tok, kind := Kind.unused, timestamp := none } := by
  simp only [classifyLine]
  rw [if_neg (by rw [h1]; simp)]
  split
  · next tl heq =>
    rw [if_neg ?hcond]
    case hcond =>
      rintro ⟨hlen, hne⟩
      rw [timedPatB, heq] at h2
      simp only [Bool.and_eq_false_iff, decide_eq_false_iff_not] at h2
      rcases h2 with h | h
      · exact h hlen
      · have h3 : tl.isEmpty = true := by simpa using h
        exact hne (List.isEmpty_iff.mp h3)
  · rfl

theorem classify_timed_aux {ts : Nat} {tok : Str} :
    permTag.isPrefixOf (natDigits ts ++ ':' :: tok) = false
      ∧ (natDigits ts ++ ':' :: tok).takeWhile Char.isDigit = natDigits ts := by
  constructor
  · cases hnd : natDigits ts with
    | nil => exact absurd hnd (natDigits_ne_nil ts)
    | cons c cs =>
      apply head_not_perm_prefix (c := c)
      · rw [List.cons_append, List.head?_cons]
      · exact digit_ne (natDigits_isDigit ts c (by rw [hnd]; exact List.mem_cons_self c cs))
          (by decide)
  · rw [takeWhile_append_all (natDigits_isDigit ts), List.takeWhile_cons,
      if_neg (by decide), List.append_nil]

theorem classify_timed {ts : Nat} {tok : Str} (h10 : 10 ≤ (natDigits ts).length)
    (hs : strip tok = tok) (hne : tok ≠ []) :
    classifyLine (natDigits ts ++ ':' :: tok)
      = { token := tok, kind := Kind.timed, timestamp := some ts } := by
  obtain ⟨hpre, htw⟩ := @classify_timed_aux ts tok
  simp only [classifyLine]
  rw [if_neg (by rw [hpre]; simp), htw, List.drop_left]
  split
  · rename_i tl heq
    simp only [List.cons.injEq] at heq
    obtain ⟨-, h4⟩ := heq
    subst h4
    rw [if_pos ⟨h10, hne⟩, hs, digitsVal_natDigits]
  · rename_i hvar hex
    exact (hex tok rfl).elim

theorem classify_timed_short {ts : Nat} {tok : Str} (h10 : (natDigits ts).length < 10) :
    (classifyLine (natDigits ts ++ ':' :: tok)).kind = Kind.unused := by
  obtain ⟨hpre, htw⟩ := @classify_timed_aux ts tok
  simp only [classifyLine]
  rw [if_neg (by rw [hpre]; simp), htw, List.drop_left]
  split
  · rename_i tl heq
    rw [if_neg (by rintro ⟨hlen, -⟩; omega)]
  · rfl

theorem classify_WF {s : Str} (hidem : strip s = s) (hsep : ∀ c ∈ s, c ≠ '\n' ∧ c ≠ '\r')
    (hne : s ≠ []) (hhash : s.head? ≠ some '#') : WFEntry (classifyLine s) := by
  by_cases hperm : permTag.isPrefixOf s = true
  · obtain ⟨t, ht⟩ := List.isPrefixOf_iff_prefix.mp hperm
    have hcl : classifyLine s
        = { token := strip t, kind := Kind.permanent, timestamp := none } := by
      rw [← ht]
      simp only [classifyLine]
      rw [if_pos (List.isPrefixOf_iff_prefix.mpr (List.prefix_append _ _)), List.drop_left]
    rw [hcl]
    refine ⟨strip_idem t, ?_, fun _ => rfl, ?_, ?_⟩
    · intro c hc
      exact hsep c (by rw [← ht]; exact List.mem_append.mpr (Or.inr (strip_subset c hc)))
    · intro h; cases h
    · intro h; cases h
  · have hperm2 : permTag.isPrefixOf s = false := by
      cases h : permTag.isPrefixOf s
      · rfl
      · exact absurd h hperm
    by_cases htp : timedPatB s = true
    · rw [timedPatB] at htp
      split at htp
      · rename_i tl heq
        simp only [Bool.and_eq_true, decide_eq_true_eq] at htp
        obtain ⟨hlen, hemp⟩ := htp
        have htlne : tl ≠ [] := by
          intro h
          rw [h] at hemp
          simp at hemp
        have hcl : classifyLine s
            = { token := strip tl, kind := Kind.timed,
                timestamp := some (digitsVal (s.takeWhile Char.isDigit)) } := by
          simp only [classifyLine]
          rw [if_neg (by rw [hperm2]; simp)]
          split
          · rename_i tl2 heq2
            rw [heq] at heq2
            simp only [List.cons.injEq] at heq2
            obtain ⟨-, h4⟩ := heq2
            subst h4
            rw [if_pos ⟨hlen, htlne⟩]
          · rename_i hvar hex
            exact (hex tl heq).elim
        rw [hcl]
        have htl_suffix : tl <:+ s := by
          have h1 : ':' :: tl <:+ s := heq ▸ List.drop_suffix _ _
          exact (List.suffix_cons ':' tl).trans h1
        have hlast : s.getLast? = tl.getLast? := getLast?_of_suffix htl_suffix htlne
        refine ⟨strip_idem tl, ?_, ?_, ?_, ?_⟩
        · intro c hc
          exact hsep c (htl_suffix.subset (strip_subset c hc))
        · intro h; cases h
        · intro _
          refine ⟨?_, _, rfl⟩
          cases hg : s.getLast? with
          | none => exact absurd (List.getLast?_eq_none_iff.mp hg) hne
          | some c0 =>
            exact strip_ne_nil_of_getLast (hlast.symm.trans hg)
              (stripped_getLast_not_ws hidem c0 (by rw [hg]; rfl))
        · intro h; cases h
      · cases htp
    · have htp2 : timedPatB s = false := by
        cases h : timedPatB s
        · rfl
        · exact absurd h htp
      rw [classify_unused hperm2 htp2]
      refine ⟨hidem, hsep, ?_, ?_, ?_⟩
      · intro h; cases h
      · intro h; cases h
      · intro _
        exact ⟨hne, hhash, hperm2, htp2, rfl⟩

theorem parse_WF {f : Option Str} : ∀ e ∈ parse_token_file f, WFEntry e := by
  intro e he
  cases f with
  | none => simp [parse_token_file] at he
  | some text =>
    simp only [parse_token_file, List.mem_filterMap] at he
    obtain ⟨line, hline, hfn⟩ := he
    split at hfn
    · exact absurd hfn (by simp)
    · split at hfn
      · exact absurd hfn (by simp)
      · rename_i hne hhash
        simp only [Option.some.injEq] at hfn
        subst hfn
        exact classify_WF (strip_idem line)
          (fun c hc => splitLinesU_no_sep text line hline c (strip_subset c hc))
          hne hhash

theorem append_head_not_ws {a : Str} (b : Str) (hane : a ≠ [])
    (ha : ∀ c ∈ a.head?, pyWs c = false) :
    ∀ c ∈ (a ++ b).head?, pyWs c = false := by
  rw [List.head?_append_of_ne_nil a hane]
  exact ha

theorem append_last_not_ws {a b : Str} (ha : ∀ c ∈ a.getLast?, pyWs c = false)
    (hb : ∀ c ∈ b.getLast?, pyWs c = false) :
    ∀ c ∈ (a ++ b).getLast?, pyWs c = false := by
  intro c hc
  rw [List.getLast?_append] at hc
  cases hbl : b.getLast? with
  | none =>
    rw [hbl] at hc
    simp only [Option.or] at hc
    exact ha c hc
  | some c2 =>
    rw [hbl] at hc
    simp only [Option.or] at hc
    exact hb c (by rw [hbl]; exact hc)

theorem natDigits_head_not_ws (ts : Nat) : ∀ c ∈ (natDigits ts).head?, pyWs c = false := by
  intro c hc
  have hmem : c ∈ natDigits ts := by
    cases hnd : natDigits ts with
    | nil => rw [hnd] at hc; simp at hc
    | cons d ds =>
      rw [hnd, List.head?_cons] at hc
      simp only [Option.mem_def, Option.some.injEq] at hc
      rw [← hc]
      exact List.mem_cons_self d ds
  exact digit_not_ws (natDigits_isDigit ts c hmem)

theorem entryLine_no_sep {e : TokenEntry} (hwf : WFEntry e) :
    ∀ c ∈ entryLine e, c ≠ '\n' ∧ c ≠ '\r' := by
  obtain ⟨hst, hsep, hperm, htimed, hunused⟩ := hwf
  intro c hc
  cases hk : e.kind
  case permanent =>
    simp only [entryLine, hk] at hc
    rcases List.mem_append.mp hc with h | h
    · have hall : ∀ x ∈ permTag, x ≠ '\n' ∧ x ≠ '\r' := by decide
      exact hall c h
    · exact hsep c h
  case timed =>
    obtain ⟨hne0, ts, hts⟩ := htimed hk
    simp only [entryLine, hk, hts] at hc
    rcases List.mem_append.mp hc with h | h
    · have hd := natDigits_isDigit ts c h
      exact ⟨digit_ne hd (by decide), digit_ne hd (by decide)⟩
    · rcases List.mem_cons.mp h with rfl | h2
      · exact ⟨by decide, by decide⟩
      · exact hsep c h2
  case unused =>
    simp only [entryLine, hk] at hc
    exact hsep c hc

theorem entryLine_line_ok {e : TokenEntry} (hwf : WFEntry e) :
    strip (entryLine e) = entryLine e ∧ entryLine e ≠ []
      ∧ (entryLine e).head? ≠ some '#' := by
  obtain ⟨hst, hsep, hperm, htimed, hunused⟩ := hwf
  cases hk : e.kind
  case permanent =>
    simp only [entryLine, hk]
    refine ⟨?_, by simp [permTag], ?_⟩
    · apply strip_eq_self
      · exact append_head_not_ws _ (by decide) (by decide)
      · apply append_last_not_ws
        · decide
        · exact stripped_getLast_not_ws hst
      -- note: getLast? of the append prefers the token side; the permTag
      -- side ends in a colon, which is not whitespace either
    · rw [List.head?_append_of_ne_nil _ (by decide : permTag ≠ [])]
      decide
  case timed =>
    obtain ⟨hne0, ts, hts⟩ := htimed hk
    simp only [entryLine, hk, hts]
    have hndne : natDigits ts ≠ [] := natDigits_ne_nil ts
    refine ⟨?_, by simp [hndne], ?_⟩
    · apply strip_eq_self
      · exact append_head_not_ws _ hndne (natDigits_head_not_ws ts)
      · apply append_last_not_ws
        · intro c hc
          exact digit_not_ws (natDigits_isDigit ts c (List.mem_of_mem_getLast? hc))
        · intro c hc
          rw [getLast?_of_suffix (List.suffix_cons ':' e.token) hne0] at hc
          exact stripped_getLast_not_ws hst c hc
    · rw [List.head?_append_of_ne_nil _ hndne]
      intro h
      cases hnd : natDigits ts with
      | nil => exact hndne hnd
      | cons d ds =>
        rw [hnd, List.head?_cons] at h
        simp only [Option.some.injEq] at h
        have hd := natDigits_isDigit ts d (by rw [hnd]; exact List.mem_cons_self d ds)
        exact digit_ne hd (by decide) h
  case unused =>
    obtain ⟨hne0, hhash, -, -, -⟩ := hunused hk
    simp only [entryLine, hk]
    exact ⟨hst, hne0, hhash⟩

theorem parse_write (entries : List TokenEntry) (hwf : ∀ e ∈ entries, WFEntry e) :
    parse_token_file (some (write_token_file entries)) = entries.map reparseEntry := by
  induction entries with
  | nil => rfl
  | cons e es ih =>
    have hwfe := hwf e (List.mem_cons_self e es)
    obtain ⟨hstr, hne, hhash⟩ := entryLine_line_ok hwfe
    have hmain : write_token_file (e :: es)
        = entryLine e ++ '\n' :: write_token_file es := by
      rw [write_token_file, write_token_file, List.map_cons, List.flatten_cons,
        List.append_assoc, List.singleton_append]
    rw [hmain, parse_token_file, splitLinesU_append _ _ (entryLine_no_sep hwfe)]
    rw [List.filterMap_cons_some (show _ = some (classifyLine (entryLine e)) from by
      show (if strip (entryLine e) = [] then none
        else if (strip (entryLine e)).head? = some '#' then none
        else some (classifyLine (strip (entryLine e)))) = some (classifyLine (entryLine e))
      rw [hstr, if_neg hne, if_neg hhash])]
    rw [List.map_cons]
    congr 1
    exact ih (fun x hx => hwf x (List.mem_cons_of_mem e hx))

theorem reparse_eq {e : TokenEntry} (hwf : WFEntry e)
    (hts : e.kind = Kind.timed → ∀ ts, e.timestamp = some ts → 10 ≤ (natDigits ts).length) :
    reparseEntry e = e := by
  obtain ⟨tok, k, tsf⟩ := e
  obtain ⟨hst, hsep, hperm, htimed, hunused⟩ := hwf
  cases k
  case permanent =>
    have h0 : tsf = none := hperm rfl
    subst h0
    rw [reparseEntry]
    simp only [entryLine]
    exact classify_perm hst
  case timed =>
    obtain ⟨hne0, ts, htsf⟩ := htimed rfl
    subst htsf
    rw [reparseEntry]
    simp only [entryLine]
    exact classify_timed (hts rfl ts rfl) hst hne0
  case unused =>
    obtain ⟨hne0, hhash, hpre, htp, htsf⟩ := hunused rfl
    subst htsf
    rw [reparseEntry]
    simp only [entryLine]
    exact classify_unused hpre htp

theorem reparse_timed_ts {e : TokenEntry} (hwf : WFEntry e) :
    (reparseEntry e).kind = Kind.timed
      → e.kind = Kind.timed ∧ (reparseEntry e).timestamp = e.timestamp := by
  obtain ⟨tok, k, tsf⟩ := e
  obtain ⟨hst, hsep, hperm, htimed, hunused⟩ := hwf
  cases k
  case permanent =>
    have h0 : tsf = none := hperm rfl
    subst h0
    rw [reparseEntry]
    simp only [entryLine]
    rw [classify_perm hst]
    intro h
    cases h
  case timed =>
    obtain ⟨hne0, ts, htsf⟩ := htimed rfl
    subst htsf
    rw [reparseEntry]
    simp only [entryLine]
    by_cases h10 : 10 ≤ (natDigits ts).length
    · rw [classify_timed h10 hst hne0]
      exact fun _ => ⟨trivial, rfl⟩
    · intro hk2
      rw [classify_timed_short (by omega)] at hk2
      cases hk2
  case unused =>
    obtain ⟨hne0, hhash, hpre, htp, htsf⟩ := hunused rfl
    subst htsf
    rw [reparseEntry]
    simp only [entryLine]
    rw [classify_unused hpre htp]
    intro h
    cases h

/-- C7 (amended): write then parse preserves every entry exactly — kind,
token and timestamp in order — provided every timed timestamp is at least
10^9, that is, its decimal rendering has at least the ten digits the parse
pattern demands.  Timestamps below 10^9 (only producible from entries with
leading zeros) re-read as unused bare tokens, see the counterexample. -/
theorem write_parse_roundtrip (X : Str)
    (hts : ∀ e ∈ parse_token_file (some X), tsAtLeastB 1000000000 e = true) :
    parse_token_file (some (write_token_file (parse_token_file (some X))))
      = parse_token_file (some X) := by
  rw [parse_write _ (fun e he => parse_WF e he)]
  have hid : ∀ e ∈ parse_token_file (some X), reparseEntry e = id e := by
    intro e he
    apply reparse_eq (parse_WF e he)
    intro hk ts hts2
    have h1 := hts e he
    rw [tsAtLeastB, hts2] at h1
    simp only [decide_eq_true_eq] at h1
    have h2 := natDigits_len_ge 9 ts h1
    omega
  rw [List.map_congr_left hid, List.map_id]

/-- Witness for write_parse_roundtrip at a concrete input. -/
theorem write_parse_roundtrip_witness :
    parse_token_file (some (write_token_file (parse_token_file
        (some "1700000000:t1\npermanent:p1\nu1\n".data))))
      = parse_token_file (some "1700000000:t1\npermanent:p1\nu1\n".data) :=
  write_parse_roundtrip "1700000000:t1\npermanent:p1\nu1\n".data (by decide)

/-- C7 counterexample: the entry 0000000000:tok parses as a timed entry with
timestamp 0; writing it back yields 0:tok, which re-parses as an unused bare
token 0:tok — the kind and the token both change, so write-then-parse does
not preserve the semantics of every entry. -/
theorem write_parse_roundtrip_cex :
    parse_token_file (some "0000000000:tok\n".data)
        = [{ token := "tok".data, kind := Kind.timed, timestamp := some 0 }]
      ∧ parse_token_file (some (write_token_file (parse_token_file
          (some "0000000000:tok\n".data))))
        = [{ token := "0:tok".data, kind := Kind.unused, timestamp := none }]
      ∧ ([{ token := "0:tok".data, kind := Kind.unused, timestamp := none }]
          : List TokenEntry)
        ≠ [{ token := "tok".data, kind := Kind.timed, timestamp := some 0 }] := by
  refine ⟨by decide, by decide, by decide⟩

theorem authScan_kept_cases (now : Nat) (tok : Str) :
    ∀ l (m : Bool), ∀ e2 ∈ (authScan now tok l m).1,
      (e2 ∈ l ∧ expiredB now e2 = false)
      ∨ ∃ e ∈ l, (e.kind = Kind.unused ∨ e.kind = Kind.timed)
          ∧ e2 = { token := e.token, kind := Kind.timed, timestamp := some now } := by
  intro l
  induction l with
  | nil => intro m e2 h; simp [authScan] at h
  | cons e rest ih =>
    intro m e2 h2
    have lift : (e2 ∈ rest ∧ expiredB now e2 = false)
        ∨ (∃ x ∈ rest, (x.kind = Kind.unused ∨ x.kind = Kind.timed)
            ∧ e2 = { token := x.token, kind := Kind.timed, timestamp := some now })
        → (e2 ∈ e :: rest ∧ expiredB now e2 = false)
        ∨ ∃ x ∈ e :: rest, (x.kind = Kind.unused ∨ x.kind = Kind.timed)
            ∧ e2 = { token := x.token, kind := Kind.timed, timestamp := some now } := by
      rintro (⟨h3, h4⟩ | ⟨x, hx, h5, h6⟩)
      · exact Or.inl ⟨List.mem_cons_of_mem e h3, h4⟩
      · exact Or.inr ⟨x, List.mem_cons_of_mem e hx, h5, h6⟩
    by_cases hexp : expiredB now e = true
    · simp only [authScan, if_pos hexp] at h2
      exact lift (ih m e2 h2)
    · have hexp2 : expiredB now e = false := by
        cases h : expiredB now e
        · rfl
        · exact absurd h hexp
      by_cases hc : m = false ∧ e.token = tok
      · simp only [authScan, if_neg hexp, if_pos hc] at h2
        cases hk : e.kind with
        | permanent =>
          rw [hk] at h2
          simp only [List.mem_cons] at h2
          rcases h2 with rfl | h3
          · exact Or.inl ⟨List.mem_cons_self e2 rest, hexp2⟩
          · exact lift (ih true e2 h3)
        | timed =>
          rw [hk] at h2
          simp only [List.mem_cons] at h2
          rcases h2 with rfl | h3
          · exact Or.inr ⟨e, List.mem_cons_self e rest, Or.inr hk, rfl⟩
          · exact lift (ih true e2 h3)
        | unused =>
          rw [hk] at h2
          simp only [List.mem_cons] at h2
          rcases h2 with rfl | h3
          · exact Or.inr ⟨e, List.mem_cons_self e rest, Or.inl hk, rfl⟩
          · exact lift (ih true e2 h3)
      · simp only [authScan, if_neg hexp, if_neg hc] at h2
        simp only [List.mem_cons] at h2
        rcases h2 with rfl | h3
        · exact Or.inl ⟨List.mem_cons_self e2 rest, hexp2⟩
        · exact lift (ih m e2 h3)

theorem authScan_kept_WF (now : Nat) (tok : Str) {l : List TokenEntry} {m : Bool}
    (hwf : ∀ e ∈ l, WFEntry e) :
    ∀ e2 ∈ (authScan now tok l m).1, WFEntry e2 := by
  intro e2 h2
  rcases authScan_kept_cases now tok l m e2 h2 with ⟨h3, -⟩ | ⟨e, he, hkind, rfl⟩
  · exact hwf e2 h3
  · obtain ⟨hst, hsep, hperm, htimed, hunused⟩ := hwf e he
    have hne0 : e.token ≠ [] := by
      rcases hkind with hk | hk
      · exact (hunused hk).1
      · exact (htimed hk).1
    refine ⟨hst, hsep, ?_, ?_, ?_⟩
    · intro h
      cases h
    · intro _
      exact ⟨hne0, now, rfl⟩
    · intro h
      cases h

theorem authScan_kept_fresh (now : Nat) (tok : Str) {l : List TokenEntry} {m : Bool} :
    ∀ e2 ∈ (authScan now tok l m).1,
      e2.kind = Kind.timed → ∀ ts, e2.timestamp = some ts → now - ts < SESSION_TIMEOUT := by
  intro e2 h2 hk ts hts
  rcases authScan_kept_cases now tok l m e2 h2 with ⟨-, h4⟩ | ⟨e, -, -, rfl⟩
  · exact (expiredB_false_iff now e2).mp h4 hk ts hts
  · simp only [Option.some.injEq] at hts
    rw [← hts]
    simp [SESSION_TIMEOUT]

theorem authScan_unchanged (now : Nat) (tok : Str) :
    ∀ l (m : Bool), (authScan now tok l m).2.1 = false →
      ∀ e ∈ l, expiredB now e = false := by
  intro l
  induction l with
  | nil => intro m _ e h; simp at h
  | cons e rest ih =>
    intro m hch e2 h2
    by_cases hexp : expiredB now e = true
    · simp only [authScan, if_pos hexp] at hch
      cases hch
    · have hexp2 : expiredB now e = false := by
        cases h : expiredB now e
        · rfl
        · exact absurd h hexp
      by_cases hc : m = false ∧ e.token = tok
      · cases hk : e.kind with
        | permanent =>
          simp only [authScan, if_neg hexp, if_pos hc, hk] at hch
          rcases List.mem_cons.mp h2 with rfl | h3
          · exact hexp2
          · exact ih true hch e2 h3
        | timed =>
          simp only [authScan, if_neg hexp, if_pos hc, hk] at hch
          cases hch
        | unused =>
          simp only [authScan, if_neg hexp, if_pos hc, hk] at hch
          cases hch
      · simp only [authScan, if_neg hexp, if_neg hc] at hch
        rcases List.mem_cons.mp h2 with rfl | h3
        · exact hexp2
        · exact ih m hch e2 h3

/-- C8: after any authenticate call — whatever the candidate token and the
outcome — the persisted store holds no Timed entry whose age at the time of
the call is at least the session timeout, matched or not: expired entries
are swept on every call, surviving timed entries were young, and refreshed
or promoted entries carry the call time itself. -/
theorem no_expired_after (file : Option Str) (now : Nat) (tok : Str) :
    ∀ e ∈ parse_token_file (authenticate file now tok).2,
      e.kind = Kind.timed → ∀ ts, e.timestamp = some ts → now - ts < SESSION_TIMEOUT := by
  intro e he hk ts hts
  simp only [authenticate] at he
  by_cases hch : (authScan now tok (parse_token_file file) false).2.1 = true
  · rw [if_pos hch] at he
    rw [parse_write _ (authScan_kept_WF now tok (fun x hx => parse_WF x hx))] at he
    obtain ⟨e0, he0, heq⟩ := List.mem_map.mp he
    have hwf0 : WFEntry e0 := authScan_kept_WF now tok (fun x hx => parse_WF x hx) e0 he0
    subst heq
    obtain ⟨hk0, hts0⟩ := reparse_timed_ts hwf0 hk
    exact authScan_kept_fresh now tok e0 he0 hk0 ts (hts0.symm.trans hts)
  · rw [if_neg hch] at he
    have hch2 : (authScan now tok (parse_token_file file) false).2.1 = false := by
      cases h : (authScan now tok (parse_token_file file) false).2.1
      · rfl
      · exact absurd h hch
    exact (expiredB_false_iff now e).mp
      (authScan_unchanged now tok (parse_token_file file) false hch2 e he) hk ts hts

/-- Witness for no_expired_after at a concrete input: an unused token is
promoted to a timed entry carrying the call time, and the promoted entry in
the rewritten store is not expired. -/
theorem no_expired_after_witness :
    (1700000000 : Nat) - 1700000000 < SESSION_TIMEOUT :=
  no_expired_after (some "fresh\n".data) 1700000000 "fresh".data
    { token := "fresh".data, kind := Kind.timed, timestamp := some 1700000000 }
    (by decide) rfl 1700000000 rfl

theorem replaceChar_cons (c : Char) (s : Str) (x : Char) (new : Str) :
    replaceChar (c :: s) x new = (if c == x then new else [c]) ++ replaceChar s x new := by
  simp [replaceChar]

theorem replaceChar_append (a b : Str) (x : Char) (new : Str) :
    replaceChar (a ++ b) x new = replaceChar a x new ++ replaceChar b x new := by
  simp [replaceChar]

theorem escapeVal_cons (c : Char) (v : Str) :
    escapeVal (c :: v)
      = (if c = bsC then [bsC, bsC] else if c = dqC then [bsC, dqC] else [c])
        ++ escapeVal v := by
  rw [escapeVal, replaceChar_cons, replaceChar_append]
  by_cases h1 : c = bsC
  · subst h1
    rw [if_pos (by simp), if_pos rfl]
    rw [show replaceChar [bsC, bsC] dqC [bsC, dqC] = [bsC, bsC] from by decide]
    rfl
  · by_cases h2 : c = dqC
    · subst h2
      rw [if_neg (by simpa using h1), if_neg h1, if_pos rfl]
      rw [show replaceChar [dqC] dqC [bsC, dqC] = [bsC, dqC] from by decide]
      rfl
    · rw [if_neg (by simpa using h1), if_neg h1, if_neg h2]
      rw [replaceChar_cons, if_neg (by simpa using h2)]
      rfl

theorem shlexGo_word_eq (c : Char) (rest cur : Str) (acc : List Str) :
    shlexGo (c :: rest) SMode.word cur acc
      = if shWs c then shlexGo rest SMode.out [] (cur.reverse :: acc)
        else if c = sqC then shlexGo rest SMode.quoteS cur acc
        else if c = dqC then shlexGo rest SMode.quoteD cur acc
        else if c = bsC then
          (match rest with
           | [] => none
           | d :: rest2 => shlexGo rest2 SMode.word (d :: cur) acc)
        else shlexGo rest SMode.word (c :: cur) acc := by
  rw [shlexGo.eq_def]
  rfl

theorem shlexGo_out_eq (c : Char) (rest cur : Str) (acc : List Str) :
    shlexGo (c :: rest) SMode.out cur acc
      = if shWs c then shlexGo rest SMode.out cur acc
        else if c = sqC then shlexGo rest SMode.quoteS cur acc
        else if c = dqC then shlexGo rest SMode.quoteD cur acc
        else if c = bsC then
          (match rest with
           | [] => none
           | d :: rest2 => shlexGo rest2 SMode.word (d :: cur) acc)
        else shlexGo rest SMode.word (c :: cur) acc := by
  rw [shlexGo.eq_def]
  rfl

theorem shlexGo_quoteD_eq (c : Char) (rest cur : Str) (acc : List Str) :
    shlexGo (c :: rest) SMode.quoteD cur acc
      = if c = dqC then shlexGo rest SMode.word cur acc
        else if c = bsC then
          (match rest with
           | [] => none
           | d :: rest2 =>
             if d = dqC ∨ d = bsC then shlexGo rest2 SMode.quoteD (d :: cur) acc
             else shlexGo rest2 SMode.quoteD (d :: bsC :: cur) acc)
        else shlexGo rest SMode.quoteD (c :: cur) acc := by
  rw [shlexGo.eq_def]
  rfl

theorem shlexGo_word_step {c : Char} (hws : shWs c = false) (hsq : c ≠ sqC)
    (hdq : c ≠ dqC) (hbs : c ≠ bsC) (rest cur : Str) (acc : List Str) :
    shlexGo (c :: rest) SMode.word cur acc = shlexGo rest SMode.word (c :: cur) acc := by
  rw [shlexGo_word_eq, if_neg (by rw [hws]; simp), if_neg hsq, if_neg hdq, if_neg hbs]

theorem shlexGo_out_step {c : Char} (hws : shWs c = false) (hsq : c ≠ sqC)
    (hdq : c ≠ dqC) (hbs : c ≠ bsC) (rest cur : Str) (acc : List Str) :
    shlexGo (c :: rest) SMode.out cur acc = shlexGo rest SMode.word (c :: cur) acc := by
  rw [shlexGo_out_eq, if_neg (by rw [hws]; simp), if_neg hsq, if_neg hdq, if_neg hbs]

theorem shlexGo_quoteD_char {c : Char} (hdq : c ≠ dqC) (hbs : c ≠ bsC)
    (rest cur : Str) (acc : List Str) :
    shlexGo (c :: rest) SMode.quoteD cur acc
      = shlexGo rest SMode.quoteD (c :: cur) acc := by
  rw [shlexGo_quoteD_eq, if_neg hdq, if_neg hbs]

theorem shlexGo_quoteD_esc {d : Char} (hd : d = dqC ∨ d = bsC)
    (rest cur : Str) (acc : List Str) :
    shlexGo (bsC :: d :: rest) SMode.quoteD cur acc
      = shlexGo rest SMode.quoteD (d :: cur) acc := by
  rw [shlexGo_quoteD_eq, if_neg (by decide), if_pos rfl]
  simp only [if_pos hd]

theorem shlexGo_quoteD_open (rest cur : Str) (acc : List Str) :
    shlexGo (dqC :: rest) SMode.word cur acc = shlexGo rest SMode.quoteD cur acc := by
  rw [shlexGo_word_eq, if_neg (by decide), if_neg (by decide), if_pos rfl]

theorem shlexGo_quoteD_open_out (rest cur : Str) (acc : List Str) :
    shlexGo (dqC :: rest) SMode.out cur acc = shlexGo rest SMode.quoteD cur acc := by
  rw [shlexGo_out_eq, if_neg (by decide), if_neg (by decide), if_pos rfl]

theorem shlexGo_quoteD_close (rest cur : Str) (acc : List Str) :
    shlexGo (dqC :: rest) SMode.quoteD cur acc = shlexGo rest SMode.word cur acc := by
  rw [shlexGo_quoteD_eq, if_pos rfl]

theorem shlexGo_space (rest cur : Str) (acc : List Str) :
    shlexGo (' ' :: rest) SMode.word cur acc
      = shlexGo rest SMode.out [] (cur.reverse :: acc) := by
  rw [shlexGo_word_eq, if_pos (by decide)]

theorem wordConsume {t : Str}
    (hp : ∀ c ∈ t, shWs c = false ∧ c ≠ sqC ∧ c ≠ dqC ∧ c ≠ bsC) :
    ∀ rest cur acc, shlexGo (t ++ rest) SMode.word cur acc
      = shlexGo rest SMode.word (t.reverse ++ cur) acc := by
  induction t with
  | nil => intro rest cur acc; simp
  | cons c t ih =>
    intro rest cur acc
    have hc := hp c (List.mem_cons_self c t)
    rw [List.cons_append, shlexGo_word_step hc.1 hc.2.1 hc.2.2.1 hc.2.2.2,
      ih (fun d hd => hp d (List.mem_cons_of_mem c hd))]
    simp

theorem plain_consume {w : Str} (hw : plainTok w) : ConsumeTo w w := by
  obtain ⟨hne, hp⟩ := hw
  cases w with
  | nil => exact absurd rfl hne
  | cons c t =>
    intro rest cur acc
    have hc := hp c (List.mem_cons_self c t)
    rw [List.cons_append, shlexGo_out_step hc.1 hc.2.1 hc.2.2.1 hc.2.2.2,
      wordConsume (fun d hd => hp d (List.mem_cons_of_mem c hd))]
    simp

theorem escape_consume (v : Str) :
    ∀ rest cur acc, shlexGo (escapeVal v ++ rest) SMode.quoteD cur acc
      = shlexGo rest SMode.quoteD (v.reverse ++ cur) acc := by
  induction v with
  | nil =>
    intro rest cur acc
    rw [show escapeVal [] = [] from rfl]
    simp
  | cons c v ih =>
    intro rest cur acc
    rw [escapeVal_cons]
    by_cases h1 : c = bsC
    · subst h1
      rw [if_pos rfl, List.append_assoc,
        show ([bsC, bsC] : Str) ++ (escapeVal v ++ rest)
          = bsC :: bsC :: (escapeVal v ++ rest) from rfl,
        shlexGo_quoteD_esc (Or.inr rfl), ih]
      simp
    · by_cases h2 : c = dqC
      · subst h2
        rw [if_neg h1, if_pos rfl, List.append_assoc,
          show ([bsC, dqC] : Str) ++ (escapeVal v ++ rest)
            = bsC :: dqC :: (escapeVal v ++ rest) from rfl,
          shlexGo_quoteD_esc (Or.inl rfl), ih]
        simp
      · rw [if_neg h1, if_neg h2, List.append_assoc,
          show ([c] : Str) ++ (escapeVal v ++ rest) = c :: (escapeVal v ++ rest) from rfl,
          shlexGo_quoteD_char h2 h1, ih]
        simp

theorem kv_consume {k : Str} (v : Str) (hk : plainTok k) (hknE : ∀ c ∈ k, c ≠ '=') :
    ConsumeTo (k ++ '=' :: dqC :: (escapeVal v ++ [dqC])) (k ++ '=' :: v) := by
  obtain ⟨hne, hp⟩ := hk
  cases k with
  | nil => exact absurd rfl hne
  | cons c t =>
    intro rest cur acc
    have hc := hp c (List.mem_cons_self c t)
    rw [List.cons_append, List.cons_append,
      shlexGo_out_step hc.1 hc.2.1 hc.2.2.1 hc.2.2.2, List.append_assoc,
      wordConsume (fun d hd => hp d (List.mem_cons_of_mem c hd)), List.cons_append,
      shlexGo_word_step (by decide) (by decide) (by decide) (by decide),
      List.cons_append, shlexGo_quoteD_open, List.append_assoc,
      show ([dqC] : Str) ++ rest = dqC :: rest from rfl,
      escape_consume, shlexGo_quoteD_close]
    simp

theorem forall₂_consume_append {a b c d : List Str}
    (h1 : List.Forall₂ ConsumeTo a b) (h2 : List.Forall₂ ConsumeTo c d) :
    List.Forall₂ ConsumeTo (a ++ c) (b ++ d) := by
  induction h1 with
  | nil => simpa
  | cons hx _ ih => exact List.Forall₂.cons hx ih

theorem forall₂_consume_map (ps : List (Str × Str)) (f g : Str × Str → Str)
    (h : ∀ p ∈ ps, ConsumeTo (f p) (g p)) :
    List.Forall₂ ConsumeTo (ps.map f) (ps.map g) := by
  induction ps with
  | nil => exact List.Forall₂.nil
  | cons p ps ih =>
    exact List.Forall₂.cons (h p (List.mem_cons_self p ps))
      (ih (fun q hq => h q (List.mem_cons_of_mem p hq)))

theorem forall₂_consume_refl (l : List Str) (h : ∀ f ∈ l, ConsumeTo f f) :
    List.Forall₂ ConsumeTo l l := by
  induction l with
  | nil => exact List.Forall₂.nil
  | cons x l ih =>
    exact List.Forall₂.cons (h x (List.mem_cons_self x l))
      (ih (fun y hy => h y (List.mem_cons_of_mem x hy)))

theorem joinConsume (parts : List Str) :
    ∀ tokens, List.Forall₂ ConsumeTo parts tokens →
    ∀ acc, shlexGo (List.intersperse [' '] parts).flatten SMode.out [] acc
      = some (acc.reverse ++ tokens) := by
  induction parts with
  | nil =>
    intro tokens h acc
    cases h
    simp [shlexGo]
  | cons t parts ih =>
    intro tokens h acc
    cases h with
    | cons h1 h2 =>
      rename_i b l₂
      cases parts with
      | nil =>
        cases h2
        have hstep := h1 [] [] acc
        rw [List.append_nil, List.append_nil] at hstep
        simp only [List.intersperse_singleton, List.flatten_cons, List.flatten_nil,
          List.append_nil]
        rw [hstep]
        simp [shlexGo]
      | cons t2 ps2 =>
        have hstep := h1 (' ' :: (List.intersperse [' '] (t2 :: ps2)).flatten) [] acc
        rw [List.append_nil] at hstep
        simp only [List.intersperse_cons_cons, List.flatten_cons, List.singleton_append]
        rw [hstep, shlexGo_space, List.reverse_reverse, ih l₂ h2 (b :: acc)]
        simp

theorem takeWhile_neq_append {k : Str} (v : Str) (hk : ∀ c ∈ k, c ≠ '=') :
    (k ++ '=' :: v).takeWhile (fun c => c != '=') = k ∧
    (k ++ '=' :: v).dropWhile (fun c => c != '=') = '=' :: v := by
  induction k with
  | nil => simp [List.takeWhile_cons, List.dropWhile_cons]
  | cons c t ih =>
    have hc := hk c (List.mem_cons_self c t)
    have iht := ih (fun d hd => hk d (List.mem_cons_of_mem c hd))
    constructor
    · rw [List.cons_append, List.takeWhile_cons, if_pos (by simpa using hc), iht.1]
    · rw [List.cons_append, List.dropWhile_cons, if_pos (by simpa using hc), iht.2]

theorem partitionEq_kv {k : Str} (v : Str) (hk : ∀ c ∈ k, c ≠ '=') :
    partitionEq (k ++ '=' :: v) = (k, v) := by
  have h := takeWhile_neq_append v hk
  simp [partitionEq, h.1, h.2]

theorem kv_hasEq (k v : Str) : (k ++ '=' :: v).any (fun c => c == '=') = true := by
  simp

theorem noEq_any {t : Str} (ht : ∀ c ∈ t, c ≠ '=') :
    t.any (fun c => c == '=') = false := by
  simp only [List.any_eq_false, beq_iff_eq]
  exact ht

theorem dinsert_absent {d : List (Str × Str)} {k : Str} (h : ∀ q ∈ d, q.1 ≠ k) (v : Str) :
    dinsert d k v = d ++ [(k, v)] := by
  have ha : d.any (fun p => p.1 == k) = false := by
    simp only [List.any_eq_false, beq_iff_eq]
    exact h
  rw [dinsert, ha]
  simp

theorem fadd_absent {fs : List Str} {f : Str} (h : f ∉ fs) : fadd fs f = fs ++ [f] := by
  have ha : fs.any (fun x => x == f) = false := by
    simp only [List.any_eq_false, beq_iff_eq]
    intro x hx hxf
    exact h (hxf ▸ hx)
  rw [fadd, ha]
  simp

theorem argsLoop_kv_phase (ps : List (Str × Str)) :
    ∀ (ts : List Str) (d : List (Str × Str)) (fs : List Str),
    (∀ p ∈ ps, ∀ c ∈ p.1, c ≠ '=') →
    ((d ++ ps).map Prod.fst).Nodup →
    argsLoop (ps.map (fun p => p.1 ++ '=' :: p.2) ++ ts) (d, fs)
      = argsLoop ts (d ++ ps, fs) := by
  induction ps with
  | nil => intro ts d fs _ _; simp
  | cons p ps ih =>
    intro ts d fs hk hnd
    have hfresh : ∀ q ∈ d, q.1 ≠ p.1 := by
      intro q hq hqp
      have h1 : ((d.map Prod.fst) ++ (p.1 :: ps.map Prod.fst)).Nodup := by
        simpa using hnd
      rw [List.nodup_append] at h1
      exact h1.2.2 (List.mem_map_of_mem Prod.fst hq) (hqp ▸ List.mem_cons_self p.1 _)
    rw [List.map_cons, List.cons_append]
    rw [show argsLoop ((p.1 ++ '=' :: p.2) :: (ps.map (fun p => p.1 ++ '=' :: p.2) ++ ts)) (d, fs)
        = if (p.1 ++ '=' :: p.2).any (fun c => c == '=') then
            argsLoop (ps.map (fun p => p.1 ++ '=' :: p.2) ++ ts)
              (dinsert d (partitionEq (p.1 ++ '=' :: p.2)).1 (partitionEq (p.1 ++ '=' :: p.2)).2, fs)
          else
            argsLoop (ps.map (fun p => p.1 ++ '=' :: p.2) ++ ts) (d, fadd fs (p.1 ++ '=' :: p.2))
      from rfl]
    rw [kv_hasEq, if_pos rfl, partitionEq_kv p.2 (hk p (List.mem_cons_self p ps)),
      dinsert_absent hfresh p.2,
      ih ts (d ++ [(p.1, p.2)]) fs (fun q hq => hk q (List.mem_cons_of_mem p hq))
        (by rw [List.append_assoc]; simpa using hnd)]
    rw [List.append_assoc]
    rfl

theorem argsLoop_flag_phase (ts : List Str) :
    ∀ (d : List (Str × Str)) (fs : List Str),
    (∀ t ∈ ts, ∀ c ∈ t, c ≠ '=') →
    argsLoop ts (d, fs) = (d, ts.foldl fadd fs) := by
  induction ts with
  | nil => intro d fs _; rfl
  | cons t ts ih =>
    intro d fs ht
    rw [show argsLoop (t :: ts) (d, fs)
        = if t.any (fun c => c == '=') then
            argsLoop ts (dinsert d (partitionEq t).1 (partitionEq t).2, fs)
          else argsLoop ts (d, fadd fs t)
      from rfl]
    rw [noEq_any (ht t (List.mem_cons_self t ts)), if_neg (by simp),
      ih d (fadd fs t) (fun u hu => ht u (List.mem_cons_of_mem t hu)), List.foldl_cons]

theorem foldl_fadd_fresh (ts : List Str) :
    ∀ fs, ts.Nodup → (∀ t ∈ ts, t ∉ fs) → ts.foldl fadd fs = fs ++ ts := by
  induction ts with
  | nil => intro fs _ _; simp
  | cons t ts ih =>
    intro fs hnd hni
    rw [List.foldl_cons, fadd_absent (hni t (List.mem_cons_self t ts)),
      ih (fs ++ [t]) (List.nodup_cons.1 hnd).2]
    · simp
    · intro u hu
      rw [List.mem_append]
      rintro (h1 | h1)
      · exact hni u (List.mem_cons_of_mem t hu) h1
      · rw [List.mem_singleton] at h1
        exact (List.nodup_cons.1 hnd).1 (h1 ▸ hu)

theorem mem_insertLex {a x : Str} : ∀ {l : List Str}, a ∈ insertLex x l ↔ a = x ∨ a ∈ l := by
  intro l
  induction l with
  | nil => simp [insertLex]
  | cons y ys ih =>
    by_cases h : lexLe x y
    · simp [insertLex, h]
    · simp only [insertLex, h, Bool.false_eq_true, if_false, List.mem_cons, ih]
      tauto

theorem mem_sortLex {a : Str} : ∀ {l : List Str}, a ∈ sortLex l ↔ a ∈ l := by
  intro l
  induction l with
  | nil => simp [sortLex]
  | cons x xs ih => simp [sortLex, mem_insertLex, ih]

theorem nodup_insertLex {x : Str} : ∀ {l : List Str}, x ∉ l → l.Nodup → (insertLex x l).Nodup := by
  intro l
  induction l with
  | nil => intro _ _; simp [insertLex]
  | cons y ys ih =>
    intro hx hnd
    by_cases h : lexLe x y
    · rw [insertLex, if_pos h]
      exact List.nodup_cons.2 ⟨hx, hnd⟩
    · rw [insertLex, if_neg (by simp [h])]
      refine List.nodup_cons.2 ⟨?_, ?_⟩
      · rw [mem_insertLex]
        rintro (h1 | h1)
        · exact hx (h1 ▸ List.mem_cons_self y ys)
        · exact (List.nodup_cons.1 hnd).1 h1
      · exact ih (fun h1 => hx (List.mem_cons_of_mem y h1)) (List.nodup_cons.1 hnd).2

theorem nodup_sortLex : ∀ {l : List Str}, l.Nodup → (sortLex l).Nodup := by
  intro l
  induction l with
  | nil => intro _; simp [sortLex]
  | cons x xs ih =>
    intro hnd
    rw [sortLex]
    exact nodup_insertLex (fun h => (List.nodup_cons.1 hnd).1 (mem_sortLex.1 h))
      (ih (List.nodup_cons.1 hnd).2)

/-- C10: round trip of the command builder through shlex splitting and the
argument parser.  With a base and subcommand that are single plain tokens
(non-empty, no whitespace, quotes or backslashes), parameter keys that are
plain tokens without an equals sign, flags that are plain tokens without an
equals sign, distinct keys and distinct flags, tokenizing the built command
line succeeds and yields base, subcommand, the key=value tokens in mapping
order and the sorted flags; parsing those tokens recovers the subcommand,
the exact parameter mapping (keys, values with all embedded quotes,
backslashes and newlines, and insertion order), and the flag set (sorted,
equal to the original as a set). -/
theorem build_parse_roundtrip (base command : Str) (params : List (Str × Str)) (flags : List Str)
    (hbase : plainTok base) (hcmd : plainTok command)
    (hkeys : ∀ p ∈ params, plainTok p.1 ∧ ∀ c ∈ p.1, c ≠ '=')
    (hflags : ∀ f ∈ flags, plainTok f ∧ ∀ c ∈ f, c ≠ '=')
    (hkn : (params.map Prod.fst).Nodup) (hfn : flags.Nodup) :
    shlexSplit (build_command base command params flags)
        = some (base :: command :: (params.map (fun p => p.1 ++ '=' :: p.2) ++ sortLex flags))
      ∧ parse_obsidian_args
          (base :: command :: (params.map (fun p => p.1 ++ '=' :: p.2) ++ sortLex flags))
        = (some command, params, sortLex flags)
      ∧ (∀ f, f ∈ sortLex flags ↔ f ∈ flags) := by
  refine ⟨?_, ?_, fun f => mem_sortLex⟩
  · have hf2 : List.Forall₂ ConsumeTo
        (base :: command ::
          (params.map (fun p => p.1 ++ '=' :: dqC :: (escapeVal p.2 ++ [dqC])) ++ sortLex flags))
        (base :: command :: (params.map (fun p => p.1 ++ '=' :: p.2) ++ sortLex flags)) := by
      refine List.Forall₂.cons (plain_consume hbase)
        (List.Forall₂.cons (plain_consume hcmd)
          (forall₂_consume_append
            (forall₂_consume_map params _ _
              (fun p hp => kv_consume p.2 (hkeys p hp).1 (hkeys p hp).2))
            (forall₂_consume_refl _
              (fun f hf => plain_consume (hflags f (mem_sortLex.1 hf)).1))))
    have h := joinConsume _ _ hf2 []
    simpa [shlexSplit, build_command] using h
  · have hkv := argsLoop_kv_phase params (sortLex flags) [] []
      (fun p hp => (hkeys p hp).2) (by simpa using hkn)
    rw [List.nil_append] at hkv
    have hfl := argsLoop_flag_phase (sortLex flags) params []
      (fun t ht => (hflags t (mem_sortLex.1 ht)).2)
    have hfold := foldl_fadd_fresh (sortLex flags) [] (nodup_sortLex hfn) (by simp)
    rw [List.nil_append] at hfold
    simp only [parse_obsidian_args]
    rw [show (base :: command ::
        (params.map (fun p => p.1 ++ '=' :: p.2) ++ sortLex flags)).drop 2
      = params.map (fun p => p.1 ++ '=' :: p.2) ++ sortLex flags from rfl]
    rw [hkv, hfl, hfold]
    rfl

/-- C10 witness: a concrete instance whose value holds a double quote and
whose flag set holds one flag. -/
theorem build_parse_roundtrip_witness :
    (plainTok ['a'] ∧ plainTok ['b']
      ∧ (∀ p ∈ [((['k'] : Str), ([dqC] : Str))], plainTok p.1 ∧ ∀ c ∈ p.1, c ≠ '=')
      ∧ (∀ f ∈ [(['f'] : Str)], plainTok f ∧ ∀ c ∈ f, c ≠ '=')
      ∧ ([((['k'] : Str), ([dqC] : Str))].map Prod.fst).Nodup
      ∧ ([(['f'] : Str)]).Nodup)
    ∧ (shlexSplit (build_command ['a'] ['b'] [((['k'] : Str), ([dqC] : Str))] [(['f'] : Str)])
        = some (['a'] :: ['b'] ::
            ([((['k'] : Str), ([dqC] : Str))].map (fun p => p.1 ++ '=' :: p.2)
              ++ sortLex [(['f'] : Str)]))
      ∧ parse_obsidian_args (['a'] :: ['b'] ::
            ([((['k'] : Str), ([dqC] : Str))].map (fun p => p.1 ++ '=' :: p.2)
              ++ sortLex [(['f'] : Str)]))
        = (some ['b'], [((['k'] : Str), ([dqC] : Str))], sortLex [(['f'] : Str)])
      ∧ (∀ f, f ∈ sortLex [(['f'] : Str)] ↔ f ∈ [(['f'] : Str)])) :=
  ⟨⟨by simp only [plainTok]; decide, by simp only [plainTok]; decide,
    by simp only [plainTok]; decide, by simp only [plainTok]; decide,
    by decide, by decide⟩,
   build_parse_roundtrip ['a'] ['b'] [((['k'] : Str), ([dqC] : Str))] [(['f'] : Str)]
     (by simp only [plainTok]; decide) (by simp only [plainTok]; decide)
     (by simp only [plainTok]; decide) (by simp only [plainTok]; decide)
     (by decide) (by decide)⟩

/-- C10 counterexample to the unamended claim: the claim restricts only the
parameter keys and the flags, yet a base command holding a space (allowed by
the claim) shifts the token positions, so the parsed subcommand is the
second word of the base instead of the built subcommand. -/
theorem build_parse_roundtrip_cex :
    shlexSplit (build_command ['a', ' ', 'b'] ['c'] [] []) = some [['a'], ['b'], ['c']]
      ∧ (parse_obsidian_args [(['a'] : Str), ['b'], ['c']]).1 = some ['b']
      ∧ some (['b'] : Str) ≠ some ['c'] :=
  ⟨by decide, by decide, by decide⟩

end CmdService
